import Mathlib

/-!
Verification of the tennis round-robin scheduler (src/app/solver.py, with the
data model of src/app/input.py and src/app/output.py).

The Python source is shallowly embedded: Python dicts become association
lists in insertion order, dict subscript access (which can raise KeyError)
becomes Except-valued lookup, the process-wide random shuffle becomes an
explicit shuffle-function parameter, the HiGHS solver variables become
symbolic identifiers (assignment variables are accessed through a name-keyed
dict and are therefore identified by their name string; auxiliary indicator
variables are referenced directly as objects and are identified by creation
order), and the declared linear constraints and objective become explicit
linear-expression values.  Solved variable values, which the source reads
back as floats, are modelled as rationals.
-/

namespace TennisSched

/-! ### Decimal rendering of naturals, mirroring Python str(int) -/

/-- Recursive form of the decimal digit list (most significant first).
Structural recursion on a fuel bound so that concrete identifiers evaluate
inside the kernel. -/
def natDigitsGo : Nat → Nat → List Char → List Char
  | 0, _, acc => acc
  | fuel + 1, n, acc =>
      if n < 10 then Nat.digitChar n :: acc
      else natDigitsGo fuel (n / 10) (Nat.digitChar (n % 10) :: acc)

/-- Decimal digit list of a natural number (most significant first),
mirroring the rendering Python performs inside f-strings. -/
def natDigits (n : Nat) : List Char := natDigitsGo (n + 1) n []

/-- Decimal string of a natural number, as Python str(int) produces for
nonnegative integers. -/
def natRepr (n : Nat) : String :=
  ⟨natDigits n⟩

/-- The digit list as a self-contained recursion, used in proofs. -/
def natDigitsR (n : Nat) : List Char :=
  if h : n < 10 then [Nat.digitChar n]
  else natDigitsR (n / 10) ++ [Nat.digitChar (n % 10)]
  decreasing_by exact Nat.div_lt_self (by omega) (by omega)

theorem natDigitsGo_eq (fuel : Nat) : ∀ (n : Nat) (acc : List Char), n < fuel →
    natDigitsGo fuel n acc = natDigitsR n ++ acc := by
  induction fuel with
  | zero => omega
  | succ f ih =>
    intro n acc h
    rw [natDigitsGo]
    by_cases h10 : n < 10
    · rw [if_pos h10]
      rw [natDigitsR, dif_pos h10]
      rfl
    · rw [if_neg h10]
      have hlt : n / 10 < f := by
        have h1 : n / 10 < n := Nat.div_lt_self (by omega) (by omega)
        omega
      have hr : natDigitsR n = natDigitsR (n / 10) ++ [Nat.digitChar (n % 10)] := by
        rw [natDigitsR]
        rw [dif_neg h10]
      rw [hr, ih (n / 10) _ hlt, List.append_assoc]
      rfl

theorem natDigits_eq_r (n : Nat) : natDigits n = natDigitsR n := by
  rw [natDigits, natDigitsGo_eq (n + 1) n [] (by omega), List.append_nil]

theorem natDigitsR_ne_nil (n : Nat) : natDigitsR n ≠ [] := by
  unfold natDigitsR
  split <;> simp

theorem digitChar_isDigit {n : Nat} (h : n < 10) : (Nat.digitChar n).isDigit = true := by
  interval_cases n <;> decide

theorem digitChar_ne_hyphen {n : Nat} (h : n < 10) : Nat.digitChar n ≠ '-' := by
  interval_cases n <;> decide

theorem natDigitsR_ne_hyphen (n : Nat) : ∀ c ∈ natDigitsR n, c ≠ '-' := by
  induction n using Nat.strong_induction_on with
  | _ n ih =>
    unfold natDigitsR
    split
    next h =>
      intro c hc
      simp at hc
      subst hc
      exact digitChar_ne_hyphen h
    next h =>
      intro c hc
      rw [List.mem_append] at hc
      rcases hc with hc | hc
      · exact ih (n / 10) (Nat.div_lt_self (by omega) (by omega)) c hc
      · simp at hc
        subst hc
        exact digitChar_ne_hyphen (Nat.mod_lt _ (by omega))

theorem natDigits_ne_hyphen (n : Nat) : ∀ c ∈ natDigits n, c ≠ '-' := by
  rw [natDigits_eq_r]
  exact natDigitsR_ne_hyphen n

/-- Numeric value of a digit character. -/
def digitVal (c : Char) : Nat := c.toNat - 48

/-- Left fold reading a decimal digit list back into a number. -/
def decVal (l : List Char) : Nat :=
  l.foldl (fun a c => a * 10 + digitVal c) 0

theorem decVal_go (a : Nat) (l : List Char) :
    l.foldl (fun a c => a * 10 + digitVal c) a =
      a * 10 ^ l.length + l.foldl (fun a c => a * 10 + digitVal c) 0 := by
  induction l generalizing a with
  | nil => simp
  | cons c cs ih =>
    simp only [List.foldl_cons, List.length_cons]
    rw [ih (a * 10 + digitVal c), ih (0 * 10 + digitVal c)]
    ring

theorem decVal_append_singleton (l : List Char) (c : Char) :
    decVal (l ++ [c]) = decVal l * 10 + digitVal c := by
  simp [decVal, List.foldl_append]

theorem digitVal_digitChar {n : Nat} (h : n < 10) : digitVal (Nat.digitChar n) = n := by
  interval_cases n <;> decide

theorem decVal_natDigitsR (n : Nat) : decVal (natDigitsR n) = n := by
  induction n using Nat.strong_induction_on with
  | _ n ih =>
    unfold natDigitsR
    split
    next h => simp [decVal, digitVal_digitChar h]
    next h =>
      rw [decVal_append_singleton, ih (n / 10) (Nat.div_lt_self (by omega) (by omega)),
        digitVal_digitChar (Nat.mod_lt _ (by omega))]
      omega

theorem decVal_natDigits (n : Nat) : decVal (natDigits n) = n := by
  rw [natDigits_eq_r]
  exact decVal_natDigitsR n

theorem natRepr_injective {m n : Nat} (h : natRepr m = natRepr n) : m = n := by
  have hd : natDigits m = natDigits n := congrArg String.data h
  have h2 := decVal_natDigits m
  rw [hd, decVal_natDigits n] at h2
  exact h2.symm

theorem natRepr_ne_hyphen (n : Nat) : ∀ c ∈ (natRepr n).data, c ≠ '-' :=
  natDigits_ne_hyphen n

/-! ### Splitting strings at the last hyphen

The generated identifiers have the shape prefix ++ "-" ++ suffix where the
suffix contains no hyphen; such a decomposition is unique, which is what
makes the generated ids collision free. -/

theorem split_last_hyphen {a b n1 n2 : List Char}
    (h1 : '-' ∉ n1) (h2 : '-' ∉ n2)
    (h : a ++ '-' :: n1 = b ++ '-' :: n2) : a = b ∧ n1 = n2 := by
  induction a generalizing b with
  | nil =>
    cases b with
    | nil => simpa using h
    | cons c b2 =>
      simp only [List.nil_append, List.cons_append, List.cons.injEq] at h
      exact absurd (h.2 ▸ List.mem_append_right b2 (List.mem_cons_self _ _)) h1
  | cons c a2 ih =>
    cases b with
    | nil =>
      simp only [List.cons_append, List.nil_append, List.cons.injEq] at h
      exact absurd (h.2 ▸ List.mem_append_right a2 (List.mem_cons_self _ _)) h2
    | cons d b2 =>
      simp only [List.cons_append, List.cons.injEq] at h
      obtain ⟨he, ht⟩ := ih h.2
      exact ⟨by simp [h.1, he], ht⟩

theorem string_data_append (s t : String) : (s ++ t).data = s.data ++ t.data := rfl

/-- Unique decomposition of strings of the form a ++ "-" ++ n with a
hyphen-free n. -/
theorem hyphen_split_unique {a b n1 n2 : String}
    (h1 : ∀ c ∈ n1.data, c ≠ '-') (h2 : ∀ c ∈ n2.data, c ≠ '-')
    (h : a ++ "-" ++ n1 = b ++ "-" ++ n2) : a = b ∧ n1 = n2 := by
  have hd : a.data ++ '-' :: n1.data = b.data ++ '-' :: n2.data := by
    have := congrArg String.data h
    simpa [string_data_append] using this
  have := split_last_hyphen (fun hc => h1 _ hc rfl) (fun hc => h2 _ hc rfl) hd
  exact ⟨String.ext this.1, String.ext this.2⟩

/-- Injectivity of appending a distinguishing decimal suffix. -/
theorem hyphen_nat_suffix_inj {a b : String} {m n : Nat}
    (h : a ++ "-" ++ natRepr m = b ++ "-" ++ natRepr n) : a = b ∧ m = n := by
  obtain ⟨h1, h2⟩ := hyphen_split_unique (natRepr_ne_hyphen m) (natRepr_ne_hyphen n) h
  exact ⟨h1, natRepr_injective h2⟩

/-! ### Data model (src/app/input.py and src/app/output.py) -/

/-- A player preference for a time block (input.py, class Preference). -/
structure Preference where
  player_id : String
  time_block_id : String
  preference : Int
deriving DecidableEq, Repr

/-- A tournament player (input.py, class Player).  The seed flag starts out
false (the dataclass default) and is mutated during grouping. -/
structure Player where
  player_id : String
  pname : String
  division : String
  ranking : Int
  seed : Bool
  preferences : List Preference
deriving DecidableEq, Repr

/-- A court/time slot (input.py, class Slot). -/
structure Slot where
  court_id : String
  time_block_id : String
  is_dummy : Bool
deriving DecidableEq, Repr

/-- Slot.name from input.py. -/
def Slot.name (s : Slot) : String := s.court_id ++ "-" ++ s.time_block_id

/-- A match between two players (output.py, class Match). -/
structure Match where
  match_id : String
  player1 : Player
  player2 : Player
  group_id : String
  division : String
deriving DecidableEq, Repr

/-- A group of players (output.py, class Group), after matches have been
attached.  matches_by_player is a Python dict in insertion order, embedded
as an association list. -/
structure Group where
  group_id : String
  division : String
  players : List Player
  gmatches : List Match
  matches_by_player : List (String × List Match)
deriving DecidableEq, Repr

/-- A solved match-to-slot assignment (output.py, class Assignment).  The
source names the first field match, which is a Lean keyword, so it appears here as matchv; Group.matches is likewise a keyword and appears as gmatches. -/
structure Assignment where
  matchv : Match
  slot : Slot
deriving DecidableEq, Repr

/-- The option values the solver core reads (main.py CLI surface). -/
structure Options where
  group_size : Nat
  dummy_penalty : Int
  back_to_back_penalty : Int
deriving DecidableEq, Repr

/-- The parsed input (input.py, class Input).  All Python dicts are
association lists in insertion order; dict keys are unique, which theorems
assume explicitly where they need it. -/
structure Input where
  options : Options
  players_by_division : List (String × List Player)
  slots : List Slot
  division_availability : List (String × List String)
  time_block_ranking : List (String × Int)
  slots_by_time_block : List (String × List Slot)
  time_block_demands_by_player : List (String × List String)
deriving DecidableEq, Repr

/-! ### Group construction (solver.py, __player_groups) -/

/-- Python math.ceil(n / g) for natural n, g (g positive). -/
def ceilDiv (n g : Nat) : Nat := (n + g - 1) / g

/-- Stable insertion by ranking: a new player goes before the first member
with a ranking not below his, so players of equal ranking keep their
original relative order, as Python's stable sorted does. -/
def insertRank (p : Player) : List Player → List Player
  | [] => [p]
  | q :: qs => if q.ranking < p.ranking then q :: insertRank p qs else p :: q :: qs

/-- sorted(players, key=lambda x: x.ranking) from __player_groups: a stable
ascending sort by ranking, embedded as stable insertion sort. -/
def sortByRanking : List Player → List Player
  | [] => []
  | p :: ps => insertRank p (sortByRanking ps)

/-- One freshly created group holding its seeded player
(solver.py lines 419-425). -/
def mkSeedGroup (division : String) (i : Nat) (p : Player) : Group :=
  { group_id := division ++ "-" ++ natRepr (i + 1)
    division := division
    players := [{ p with seed := true }]
    gmatches := []
    matches_by_player := [] }

/-- group.players.append(player) on the group at the given index. -/
def appendPlayerAt : List Group → Nat → Player → List Group
  | [], _, _ => []
  | g :: gs, 0, p => { g with players := g.players ++ [p] } :: gs
  | g :: gs, i + 1, p => g :: appendPlayerAt gs i p

/-- Round-robin distribution of the shuffled unseeded players
(solver.py lines 430-434): each player is appended to the group at the
cycling index. -/
def rrDistribute : List Player → List Group → Nat → List Group
  | [], gs, _ => gs
  | p :: rest, gs, idx => rrDistribute rest (appendPlayerAt gs idx p) ((idx + 1) % gs.length)

/-- The groups one division contributes (solver.py lines 413-434), before
matches are attached.  The process-wide random shuffle is passed in as an
explicit function. -/
def buildDivisionGroups (shuffle : List Player → List Player) (gsize : Nat)
    (division : String) (ps : List Player) : List Group :=
  let sorted := sortByRanking ps
  let numGroups := ceilDiv ps.length gsize
  let divGroups := (sorted.take numGroups).enum.map (fun ip => mkSeedGroup division ip.1 ip.2)
  rrDistribute (shuffle (sorted.drop numGroups)) divGroups 0

/-! ### Match generation (solver.py, __player_matches) -/

/-- One match record (solver.py lines 465-472). -/
def mkMatch (gid division : String) (c : Nat) (p q : Player) : Match :=
  { match_id := gid ++ "-" ++ natRepr c
    player1 := p
    player2 := q
    group_id := gid
    division := division }

/-- The inner loop of __player_matches: pair one player with every later
player, with a running match counter. -/
def innerMatches (gid division : String) (p : Player) : List Player → Nat → List Match
  | [], _ => []
  | q :: qs, c => mkMatch gid division c p q :: innerMatches gid division p qs (c + 1)

/-- The outer loop of __player_matches over players in group order. -/
def outerMatches (gid division : String) : List Player → Nat → List Match
  | [], _ => []
  | p :: rest, c => innerMatches gid division p rest c ++ outerMatches gid division rest (c + rest.length)

/-- defaultdict(list) append: the key keeps its insertion position, a new
key is appended at the end. -/
def mbpAppend (idx : List (String × List Match)) (k : String) (m : Match) :
    List (String × List Match) :=
  match idx with
  | [] => [(k, [m])]
  | (k0, ms) :: rest =>
      if k0 = k then (k0, ms ++ [m]) :: rest
      else (k0, ms) :: mbpAppend rest k m

/-- The matches-by-player index: while each match is created it is appended
to player1's list and then to player2's list. -/
def buildMbp (ms : List Match) : List (String × List Match) :=
  ms.foldl (fun idx m => mbpAppend (mbpAppend idx m.player1.player_id m) m.player2.player_id m) []

/-- __player_matches: all round-robin matches of a group plus the
matches-by-player index. -/
def playerMatches (g : Group) : List Match × List (String × List Match) :=
  let ms := outerMatches g.group_id g.division g.players 1
  (ms, buildMbp ms)

/-- The second loop of __player_groups: store the generated matches on the
group. -/
def attachMatches (g : Group) : Group :=
  { g with gmatches := (playerMatches g).1, matches_by_player := (playerMatches g).2 }

/-- __player_groups: groups per division in dict order, then matches
attached to every group. -/
def playerGroups (shuffle : List Player → List Player) (inp : Input) : List Group :=
  (inp.players_by_division.flatMap
    (fun e => buildDivisionGroups shuffle inp.options.group_size e.1 e.2)).map attachMatches

/-- All matches of all groups, in model order. -/
def allMatches (gs : List Group) : List Match := gs.flatMap Group.gmatches

/-! ### Linear model vocabulary

Decision variables: __variables stores each created binary variable in a
dict keyed by its name, and every later reference goes through that dict,
so an assignment variable is identified by its name string.  The auxiliary
indicator variables of the anti-triple constraint are referenced directly
as freshly created objects, so they are identified by creation order. -/

/-- A variable identity in the built model. -/
inductive VId where
  | nm (s : String)
  | aux (k : Nat)
deriving DecidableEq, Repr

/-- A linear expression: terms (variable, coefficient) in build order,
plus an integer constant. -/
structure LinExpr where
  terms : List (VId × Int)
  const : Int
deriving DecidableEq, Repr

/-- Sum of the coefficient-weighted values of a term list. -/
def evalTerms (σ : VId → Int) (ts : List (VId × Int)) : Int :=
  (ts.map (fun t => t.2 * σ t.1)).sum

/-- Value of a linear expression under a variable valuation. -/
def LinExpr.eval (σ : VId → Int) (e : LinExpr) : Int :=
  evalTerms σ e.terms + e.const

/-- Total coefficient a term list gives a variable. -/
def coeffT (ts : List (VId × Int)) (v : VId) : Int :=
  ((ts.filter (fun t => t.1 == v)).map (fun t => t.2)).sum

/-- Total coefficient a linear expression gives a variable. -/
def LinExpr.coeff (e : LinExpr) (v : VId) : Int :=
  coeffT e.terms v

/-- Append terms and a constant to a linear expression (value += term). -/
def LinExpr.add (e : LinExpr) (ts : List (VId × Int)) (c : Int) : LinExpr :=
  { terms := e.terms ++ ts, const := e.const + c }

def LinExpr.zero : LinExpr := { terms := [], const := 0 }

/-- Constraint comparison operator. -/
inductive Rel where
  | eq
  | le
  | ge
deriving DecidableEq, Repr

def Rel.sat : Rel → Int → Int → Prop
  | .eq, a, b => a = b
  | .le, a, b => a ≤ b
  | .ge, a, b => a ≥ b

instance (r : Rel) (a b : Int) : Decidable (r.sat a b) :=
  match r with
  | .eq => inferInstanceAs (Decidable (a = b))
  | .le => inferInstanceAs (Decidable (a ≤ b))
  | .ge => inferInstanceAs (Decidable (a ≥ b))

/-- One declared linear constraint (solver.addConstr). -/
structure Constr where
  e : LinExpr
  rel : Rel
  rhs : Int
  cname : String
deriving DecidableEq, Repr

/-- A valuation satisfies one constraint. -/
def Constr.Sat (σ : VId → Int) (c : Constr) : Prop :=
  c.rel.sat (c.e.eval σ) c.rhs

instance (σ : VId → Int) (c : Constr) : Decidable (c.Sat σ) := by
  unfold Constr.Sat
  infer_instance

/-- A 0/1 valuation of all model variables. -/
def Binary (σ : VId → Int) : Prop := ∀ v, σ v = 0 ∨ σ v = 1

/-- __assign_var_name from solver.py. -/
def assignVarName (m : Match) (s : Slot) : String :=
  m.match_id ++ "-" ++ s.name

/-! ### Constraint generation (solver.py, __constraints)

Python dict subscript access raises KeyError on a missing key; the embedding
returns Except with the failed lookup. -/

/-- The kinds of KeyError that __constraints and __objective_function can
raise: a division missing from division_availability, a player id missing
from matches_by_player, a time block missing from time_block_ranking. -/
inductive KeyErr where
  | availability (division : String)
  | mbp (player_id : String)
  | ranking (time_block_id : String)
deriving DecidableEq, Repr

/-- dict[key] access: Except-valued lookup. -/
def dgetE (m : List (String × β)) (k : String) (e : KeyErr) : Except KeyErr β :=
  match m.lookup k with
  | some v => .ok v
  | none => .error e

/-- Phase 1 (lines 147-151): each match must be scheduled exactly once. -/
def matchOnceConstr (slots : List Slot) (m : Match) : Constr :=
  { e := { terms := slots.map (fun s => (VId.nm (assignVarName m s), 1)), const := 0 }
    rel := .eq
    rhs := 1
    cname := "match-" ++ m.match_id }

def phase1 (inp : Input) (groups : List Group) : List Constr :=
  groups.flatMap (fun g => g.gmatches.map (matchOnceConstr inp.slots))

/-- Phase 2 (lines 153-158): at most one match per slot. -/
def slotCapConstr (groups : List Group) (s : Slot) : Constr :=
  { e := { terms := groups.flatMap
             (fun g => g.gmatches.map (fun m => (VId.nm (assignVarName m s), 1)))
           const := 0 }
    rel := .le
    rhs := 1
    cname := "slot-" ++ s.name }

def phase2 (inp : Input) (groups : List Group) : List Constr :=
  inp.slots.map (slotCapConstr groups)

/-- Phase 3 inner part (lines 164-170): pin to 0 every variable of a slot
whose time block the division does not allow. -/
def availConstrs (slots : List Slot) (allowed : List String) (m : Match) : List Constr :=
  slots.filterMap (fun s =>
    if s.time_block_id ∈ allowed then none
    else some
      { e := { terms := [(VId.nm (assignVarName m s), 1)], const := 0 }
        rel := .eq
        rhs := 0
        cname := "availability-" ++ m.match_id ++ "-" ++ s.name })

/-- Phase 3 body for one group: look up the division's allowed time blocks
(KeyError if absent), then pin the disallowed variables of its matches. -/
def phase3fun (inp : Input) (g : Group) : Except KeyErr (List Constr) := do
  let allowed ← dgetE inp.division_availability g.division (.availability g.division)
  pure (g.gmatches.flatMap (availConstrs inp.slots allowed))

/-- Phase 3 (lines 160-170): division availability. -/
def phase3 (inp : Input) (groups : List Group) : Except KeyErr (List Constr) :=
  (groups.mapM (phase3fun inp)).map List.flatten

/-- Phase 4 constraint for one player and one time block (lines 176-183):
at most one of the player's matches in that block's slots. -/
def playerBlockConstr (pid : String) (ms : List Match) (tb : String)
    (blockSlots : List Slot) : Constr :=
  { e := { terms := ms.flatMap
             (fun m => blockSlots.map (fun s => (VId.nm (assignVarName m s), 1)))
           const := 0 }
    rel := .le
    rhs := 1
    cname := "player-" ++ pid ++ "-" ++ tb }

/-- Phase 4 body for one group and player: look up the player's matches
(KeyError if absent), then one constraint per time block. -/
def phase4fun (inp : Input) (g : Group) (p : Player) : Except KeyErr (List Constr) := do
  let ms ← dgetE g.matches_by_player p.player_id (.mbp p.player_id)
  pure (inp.slots_by_time_block.map
    (fun (e : String × List Slot) => playerBlockConstr p.player_id ms e.1 e.2))

/-- Phase 4 (lines 172-183): no double booking. -/
def phase4 (inp : Input) (groups : List Group) : Except KeyErr (List Constr) :=
  ((groups.mapM (fun (g : Group) =>
    (g.players.mapM (phase4fun inp g)).map List.flatten)).map List.flatten)

/-- Phase 5 inner part (lines 195-199): pin to 0 the player's matches on
slots outside the demanded time blocks. -/
def demandConstrs (pid : String) (ms : List Match) (demands : List String)
    (slots : List Slot) : List Constr :=
  slots.flatMap (fun s =>
    if s.time_block_id ∈ demands then []
    else ms.map (fun m =>
      { e := { terms := [(VId.nm (assignVarName m s), 1)], const := 0 }
        rel := .eq
        rhs := 0
        cname := "demand-" ++ m.match_id ++ "-" ++ s.name ++ "-" ++ pid }))

/-- Phase 5 body for one group and player: the demands map is read with
.get (no KeyError); when demands exist, matches_by_player is subscripted. -/
def phase5fun (inp : Input) (g : Group) (p : Player) : Except KeyErr (List Constr) :=
  match inp.time_block_demands_by_player.lookup p.player_id with
  | none => pure ([] : List Constr)
  | some demands => do
      let ms ← dgetE g.matches_by_player p.player_id (.mbp p.player_id)
      pure (demandConstrs p.player_id ms demands inp.slots)

/-- Phase 5 (lines 185-199): per-player time block demands. -/
def phase5 (inp : Input) (groups : List Group) : Except KeyErr (List Constr) :=
  ((groups.mapM (fun (g : Group) =>
    (g.players.mapM (phase5fun inp g)).map List.flatten)).map List.flatten)

/-- Sum of one player's assignment variables over one block's slots
(lines 220-224 and analogues): slot outer loop, match inner loop. -/
def blockSumTerms (blockSlots : List Slot) (ms : List Match) : List (VId × Int) :=
  blockSlots.flatMap (fun s => ms.map (fun m => (VId.nm (assignVarName m s), 1)))

/-- The name given to an auxiliary indicator variable (lines 226-231).  The
source interpolates the leaked loop variable slot, i.e. the last slot of the
block just iterated; the name is never used to reference the variable. -/
def auxVarName (pid tb : String) (blockSlots : List Slot) : String :=
  pid ++ "-" ++ tb ++ "-" ++ ((blockSlots.getLast?).map Slot.name).getD ""

/-- The two linking constraints of one indicator (lines 232-233):
indicator <= sum and indicator * 999 >= sum, stored as
indicator - sum compared to 0. -/
def linkConstrs (a : Nat) (ts : List (VId × Int)) : List Constr :=
  [ { e := { terms := (VId.aux a, 1) :: ts.map (fun t => (t.1, -t.2)), const := 0 }
      rel := .le
      rhs := 0
      cname := "" },
    { e := { terms := (VId.aux a, 999) :: ts.map (fun t => (t.1, -t.2)), const := 0 }
      rel := .ge
      rhs := 0
      cname := "" } ]

/-- The constraints one passing triple generates (lines 220-265) for a
player with matches ms: three fresh indicators with their linking
constraints plus the sum <= 2 constraint.  The constraint name on line 265
interpolates the leaked inner loop variable match, the last of the player's
matches. -/
def tripleGen (inp : Input) (ms : List Match) (tb1 tb2 tb3 : String) (ctr : Nat) :
    List Constr :=
  let bs1 := (inp.slots_by_time_block.lookup tb1).getD []
  let bs2 := (inp.slots_by_time_block.lookup tb2).getD []
  let bs3 := (inp.slots_by_time_block.lookup tb3).getD []
  let triple : Constr :=
    { e := { terms := [(VId.aux ctr, 1), (VId.aux (ctr + 1), 1), (VId.aux (ctr + 2), 1)]
             const := 0 }
      rel := .le
      rhs := 2
      cname := "back-to-back-" ++ (((ms.getLast?).map Match.match_id).getD "") }
  linkConstrs ctr (blockSumTerms bs1 ms) ++
    linkConstrs (ctr + 1) (blockSumTerms bs2 ms) ++
    linkConstrs (ctr + 2) (blockSumTerms bs3 ms) ++ [triple]

/-- One iteration of the anti-triple loop (lines 205-265) for one group,
player and key-position triple: look up the three rankings (KeyError if
missing), apply the literal guard of line 217 with Python operator
precedence, and when it passes look up the player's matches (the source
reaches the matches_by_player subscript through the first slot iteration of
the block; blocks hold at least one slot by construction) and emit the
indicator constraints.  Except-bind is written out as matches. -/
def tripleStep (inp : Input) (g : Group) (p : Player) (tb1 tb2 tb3 : String)
    (ctr : Nat) : Except KeyErr (Nat × List Constr) :=
  match dgetE inp.time_block_ranking tb1 (.ranking tb1) with
  | .error e => .error e
  | .ok r1 =>
    match dgetE inp.time_block_ranking tb2 (.ranking tb2) with
    | .error e => .error e
    | .ok r2 =>
      match dgetE inp.time_block_ranking tb3 (.ranking tb3) with
      | .error e => .error e
      | .ok r3 =>
        if (r2 - r1 ≠ 1) ∨ ((r3 - r2 ≠ 1) ∧ (r3 - r1 ≠ 2)) then .ok (ctr, [])
        else
          match dgetE g.matches_by_player p.player_id (.mbp p.player_id) with
          | .error e => .error e
          | .ok ms => .ok (ctr + 3, tripleGen inp ms tb1 tb2 tb3 ctr)

/-- The iteration space of the anti-triple loop: every group, every player
of the group, every triple of consecutive positions in the
slots_by_time_block key order (lines 202-213). -/
def phase6Items (inp : Input) (groups : List Group) :
    List (Group × Player × String × String × String) :=
  let keys := inp.slots_by_time_block.map Prod.fst
  groups.flatMap (fun g => g.players.flatMap (fun p =>
    (List.range (keys.length - 2)).map (fun i =>
      (g, p, keys.getD i "", keys.getD (i + 1) "", keys.getD (i + 2) ""))))

/-- Sequential processing of the anti-triple items, threading the fresh
indicator counter. -/
def phase6Fold (inp : Input) :
    List (Group × Player × String × String × String) → Nat →
    Except KeyErr (Nat × List Constr)
  | [], ctr => .ok (ctr, [])
  | x :: xs, ctr =>
      match tripleStep inp x.1 x.2.1 x.2.2.1 x.2.2.2.1 x.2.2.2.2 ctr with
      | .error e => .error e
      | .ok s =>
          match phase6Fold inp xs s.1 with
          | .error e => .error e
          | .ok r => .ok (r.1, s.2 ++ r.2)

/-- Phase 6 (lines 201-265): no three back-to-back matches per player. -/
def phase6 (inp : Input) (groups : List Group) : Except KeyErr (List Constr) :=
  (phase6Fold inp (phase6Items inp groups) 0).map Prod.snd

/-- __constraints: all six constraint families in declaration order. -/
def constraints (inp : Input) (groups : List Group) : Except KeyErr (List Constr) := do
  let c3 ← phase3 inp groups
  let c4 ← phase4 inp groups
  let c5 ← phase5 inp groups
  let c6 ← phase6 inp groups
  return phase1 inp groups ++ phase2 inp groups ++ c3 ++ c4 ++ c5 ++ c6

/-! ### Objective function (solver.py, __objective_function) -/

/-- Player 1's preference contribution for one time block (lines 294-296):
every matching preference entry is added, without break. -/
def prefSumAll (prefs : List Preference) (tb : String) : Int :=
  ((prefs.filter (fun pr => pr.time_block_id == tb)).map (fun pr => pr.preference)).sum

/-- Player 2's preference contribution for one time block (lines 298-301):
the loop breaks after the first matching entry. -/
def prefFirst (prefs : List Preference) (tb : String) : Int :=
  match prefs.find? (fun pr => pr.time_block_id == tb) with
  | some pr => pr.preference
  | none => 0

/-- The preference coefficient one (match, slot) variable receives
(lines 293-304). -/
def matchSlotPref (m : Match) (s : Slot) : Int :=
  prefSumAll m.player1.preferences s.time_block_id +
    prefFirst m.player2.preferences s.time_block_id

/-- Objective part 1 (lines 289-304): preference reward terms, slot outer
loop, then group, then match. -/
def objPrefTerms (inp : Input) (groups : List Group) : List (VId × Int) :=
  inp.slots.flatMap (fun s => groups.flatMap (fun g =>
    g.gmatches.map (fun m => (VId.nm (assignVarName m s), matchSlotPref m s))))

/-- Objective part 2 (lines 306-314): dummy slot penalty terms. -/
def objDummyTerms (inp : Input) (groups : List Group) : List (VId × Int) :=
  inp.slots.flatMap (fun s =>
    if s.is_dummy then
      groups.flatMap (fun g =>
        g.gmatches.map (fun m => (VId.nm (assignVarName m s), -inp.options.dummy_penalty)))
    else [])

/-- Objective part 3, inner loop (lines 325-336): for one first slot with
ranking r1, scan the later slots; when ranking difference is exactly 1, add
value += -1 * w * (var_1 + var_2 - 1), i.e. terms -w var_1, -w var_2 and
constant +w.  Each later slot's ranking is subscripted from
time_block_ranking (KeyError if missing). -/
def b2bInner (inp : Input) (w : Int) (m : Match) (s1 : Slot) (r1 : Int) :
    List Slot → LinExpr → Except KeyErr LinExpr
  | [], acc => .ok acc
  | s2 :: rest, acc =>
      match dgetE inp.time_block_ranking s2.time_block_id (.ranking s2.time_block_id) with
      | .error e => .error e
      | .ok r2 =>
          if r2 - r1 = 1 then
            b2bInner inp w m s1 r1 rest
              (acc.add [(VId.nm (assignVarName m s1), -w),
                (VId.nm (assignVarName m s2), -w)] w)
          else
            b2bInner inp w m s1 r1 rest acc

/-- Objective part 3, outer loop (lines 320-336): i ranges over all but the
last slot position, so the last slot never has its ranking looked up as a
first slot. -/
def b2bOuter (inp : Input) (w : Int) (m : Match) :
    List Slot → LinExpr → Except KeyErr LinExpr
  | [], acc => .ok acc
  | [_], acc => .ok acc
  | s1 :: s2 :: rest, acc =>
      match dgetE inp.time_block_ranking s1.time_block_id (.ranking s1.time_block_id) with
      | .error e => .error e
      | .ok r1 =>
          match b2bInner inp w m s1 r1 (s2 :: rest) acc with
          | .error e => .error e
          | .ok acc2 => b2bOuter inp w m (s2 :: rest) acc2

/-- Objective part 3 over one player's matches (line 319). -/
def b2bMatchesFold (inp : Input) (w : Int) : List Match → LinExpr → Except KeyErr LinExpr
  | [], acc => .ok acc
  | m :: ms, acc =>
      match b2bOuter inp w m inp.slots acc with
      | .error e => .error e
      | .ok acc2 => b2bMatchesFold inp w ms acc2

/-- Objective part 3 over one group's players (line 318); the player's
matches are subscripted from matches_by_player (KeyError if missing). -/
def b2bPlayersFold (inp : Input) (g : Group) (w : Int) :
    List Player → LinExpr → Except KeyErr LinExpr
  | [], acc => .ok acc
  | p :: ps, acc =>
      match dgetE g.matches_by_player p.player_id (.mbp p.player_id) with
      | .error e => .error e
      | .ok ms =>
          match b2bMatchesFold inp w ms acc with
          | .error e => .error e
          | .ok acc2 => b2bPlayersFold inp g w ps acc2

/-- Objective part 3 over all groups (line 317). -/
def b2bGroupsFold (inp : Input) (w : Int) : List Group → LinExpr → Except KeyErr LinExpr
  | [], acc => .ok acc
  | g :: gs, acc =>
      match b2bPlayersFold inp g w g.players acc with
      | .error e => .error e
      | .ok acc2 => b2bGroupsFold inp w gs acc2

/-- The back-to-back penalty part of the objective (lines 316-336), added
onto the accumulated value. -/
def b2bPart (inp : Input) (groups : List Group) (acc : LinExpr) : Except KeyErr LinExpr :=
  b2bGroupsFold inp inp.options.back_to_back_penalty groups acc

/-- __objective_function: value starts at 0 and accumulates the preference
reward, the dummy slot penalty and the back-to-back penalty in order. -/
def objectiveFunction (inp : Input) (groups : List Group) : Except KeyErr LinExpr :=
  b2bPart inp groups { terms := objPrefTerms inp groups ++ objDummyTerms inp groups, const := 0 }

/-! ### Solution extraction (solver.py, __assignments) -/

/-- __assignments: one Assignment per (group, match, slot) whose variable's
solved value (a float in the source, a rational here) exceeds 0.9. -/
def extractAssignments (inp : Input) (groups : List Group) (val : String → ℚ) :
    List Assignment :=
  groups.flatMap (fun g => g.gmatches.flatMap (fun m =>
    inp.slots.filterMap (fun s =>
      if val (assignVarName m s) > 9 / 10 then some { matchv := m, slot := s } else none)))

/-! ### Concrete fixtures used by witnesses and counterexamples -/

/-- A preference-free player of division D. -/
def mkP (id : String) (r : Int) : Player :=
  { player_id := id, pname := id, division := "D", ranking := r, seed := false,
    preferences := [] }

def slA1 : Slot := { court_id := "C1", time_block_id := "A", is_dummy := false }
def slA2 : Slot := { court_id := "C2", time_block_id := "A", is_dummy := false }
def slC1 : Slot := { court_id := "C1", time_block_id := "C", is_dummy := false }
def slC2 : Slot := { court_id := "C2", time_block_id := "C", is_dummy := false }
def slB1 : Slot := { court_id := "C1", time_block_id := "B", is_dummy := false }
def slB2 : Slot := { court_id := "C2", time_block_id := "B", is_dummy := false }

/-- Four players, one group, six matches; three time blocks A, B, C with
consecutive rankings 1, 2, 3, but listed in the slot sheet in the order
A, C, B, so the slots_by_time_block key order is A, C, B. -/
def cex2Input : Input :=
  { options := { group_size := 4, dummy_penalty := 1, back_to_back_penalty := 1 }
    players_by_division := [("D", [mkP "P1" 1, mkP "P2" 2, mkP "P3" 3, mkP "P4" 4])]
    slots := [slA1, slA2, slC1, slC2, slB1, slB2]
    division_availability := [("D", ["A", "B", "C"])]
    time_block_ranking := [("A", 1), ("B", 2), ("C", 3)]
    slots_by_time_block := [("A", [slA1, slA2]), ("C", [slC1, slC2]), ("B", [slB1, slB2])]
    time_block_demands_by_player := [] }

def cex2Groups : List Group := playerGroups id cex2Input

/-- A full schedule that books player P1 in all three blocks A, B, C. -/
def cex2OnNames : List String :=
  ["D-1-1-C1-A", "D-1-6-C2-A", "D-1-2-C1-B", "D-1-5-C2-B", "D-1-3-C1-C", "D-1-4-C2-C"]

def cex2Val : VId → Int
  | .nm s => if s ∈ cex2OnNames then 1 else 0
  | .aux _ => 0

/-- Two players, one match, two slots whose time blocks T2, T1 have rankings
2, 1: the slot list is ordered by descending ranking. -/
def cex3Input : Input :=
  { options := { group_size := 4, dummy_penalty := 1, back_to_back_penalty := 1 }
    players_by_division := [("D", [mkP "P1" 1, mkP "P2" 2])]
    slots := [{ court_id := "K", time_block_id := "T2", is_dummy := false },
              { court_id := "K2", time_block_id := "T1", is_dummy := false }]
    division_availability := [("D", ["T1", "T2"])]
    time_block_ranking := [("T1", 1), ("T2", 2)]
    slots_by_time_block := [("T2", [{ court_id := "K", time_block_id := "T2", is_dummy := false }]),
                            ("T1", [{ court_id := "K2", time_block_id := "T1", is_dummy := false }])]
    time_block_demands_by_player := [] }

def cex3Groups : List Group := playerGroups id cex3Input

/-- Like cex2Input but the division-availability sheet has no row for
division D. -/
def c10Input : Input :=
  { options := { group_size := 4, dummy_penalty := 1, back_to_back_penalty := 1 }
    players_by_division := [("D", [mkP "P1" 1, mkP "P2" 2, mkP "P3" 3, mkP "P4" 4])]
    slots := [slA1, slA2, slC1, slC2, slB1, slB2]
    division_availability := []
    time_block_ranking := [("A", 1), ("B", 2), ("C", 3)]
    slots_by_time_block := [("A", [slA1, slA2]), ("C", [slC1, slC2]), ("B", [slB1, slB2])]
    time_block_demands_by_player := [] }

/-- Two players, one match, three blocks A, B, C in ranking order with one
court each; the anti-triple machinery is generated here. -/
def witInput : Input :=
  { options := { group_size := 4, dummy_penalty := 1, back_to_back_penalty := 1 }
    players_by_division := [("D", [mkP "P1" 1, mkP "P2" 2])]
    slots := [slA1, slB1, slC1]
    division_availability := [("D", ["A", "B", "C"])]
    time_block_ranking := [("A", 1), ("B", 2), ("C", 3)]
    slots_by_time_block := [("A", [slA1]), ("B", [slB1]), ("C", [slC1])]
    time_block_demands_by_player := [] }

def witGroups : List Group := playerGroups id witInput

/-- Book the single match of witInput in block A; the indicator variables of
both players are 1 for block A and 0 for blocks B and C. -/
def witVal : VId → Int
  | .nm s => if s = "D-1-1-C1-A" then 1 else 0
  | .aux k => if k = 0 ∨ k = 3 then 1 else 0

/-! ### Structural facts about group construction -/

theorem appendPlayerAt_length (gs : List Group) (i : Nat) (p : Player) :
    (appendPlayerAt gs i p).length = gs.length := by
  induction gs generalizing i with
  | nil => rfl
  | cons g gs ih => cases i <;> simp [appendPlayerAt, ih]

theorem appendPlayerAt_map_inv {γ : Type} (f : Group → γ)
    (hf : ∀ g p, f { g with players := g.players ++ [p] } = f g)
    (gs : List Group) (i : Nat) (p : Player) :
    (appendPlayerAt gs i p).map f = gs.map f := by
  induction gs generalizing i with
  | nil => rfl
  | cons g gs ih => cases i <;> simp [appendPlayerAt, ih, hf]

theorem rrDistribute_length (ps : List Player) (gs : List Group) (idx : Nat) :
    (rrDistribute ps gs idx).length = gs.length := by
  induction ps generalizing gs idx with
  | nil => rfl
  | cons p rest ih =>
    rw [rrDistribute, ih, appendPlayerAt_length]

theorem rrDistribute_map_inv {γ : Type} (f : Group → γ)
    (hf : ∀ g p, f { g with players := g.players ++ [p] } = f g)
    (ps : List Player) (gs : List Group) (idx : Nat) :
    (rrDistribute ps gs idx).map f = gs.map f := by
  induction ps generalizing gs idx with
  | nil => rfl
  | cons p rest ih =>
    rw [rrDistribute, ih, appendPlayerAt_map_inv f hf]

theorem insertRank_perm (p : Player) (l : List Player) :
    (insertRank p l).Perm (p :: l) := by
  induction l with
  | nil => exact List.Perm.refl _
  | cons q qs ih =>
    rw [insertRank]
    split
    · exact ((ih.cons q).trans (List.Perm.swap p q qs)).symm.symm
    · exact List.Perm.refl _

theorem sortByRanking_perm (ps : List Player) : (sortByRanking ps).Perm ps := by
  induction ps with
  | nil => exact List.Perm.refl _
  | cons p rest ih =>
    exact (insertRank_perm p (sortByRanking rest)).trans (ih.cons p)

theorem sortByRanking_length (ps : List Player) : (sortByRanking ps).length = ps.length :=
  (sortByRanking_perm ps).length_eq

theorem insertRank_sorted (p : Player) (l : List Player)
    (hl : List.Pairwise (fun a b => a.ranking ≤ b.ranking) l) :
    List.Pairwise (fun a b => a.ranking ≤ b.ranking) (insertRank p l) := by
  induction l with
  | nil => simp [insertRank]
  | cons q qs ih =>
    rw [insertRank]
    split
    next hlt =>
      rw [List.pairwise_cons] at hl
      rw [List.pairwise_cons]
      refine ⟨?_, ih hl.2⟩
      intro b hb
      rcases List.mem_cons.mp (((insertRank_perm p qs).mem_iff).mp hb) with rfl | hb
      · omega
      · exact hl.1 b hb
    next hge =>
      rw [List.pairwise_cons]
      refine ⟨?_, hl⟩
      intro b hb
      rw [List.pairwise_cons] at hl
      rcases List.mem_cons.mp hb with rfl | hb
      · omega
      · have := hl.1 b hb
        omega

theorem sortByRanking_sorted (ps : List Player) :
    List.Pairwise (fun a b => a.ranking ≤ b.ranking) (sortByRanking ps) := by
  induction ps with
  | nil => simp [sortByRanking]
  | cons p rest ih => exact insertRank_sorted p _ ih

theorem buildDivisionGroups_length (shuffle : List Player → List Player)
    (gsize : Nat) (d : String) (ps : List Player) :
    (buildDivisionGroups shuffle gsize d ps).length =
      min (ceilDiv ps.length gsize) ps.length := by
  unfold buildDivisionGroups
  rw [rrDistribute_length, List.length_map, List.enum_length, List.length_take,
    sortByRanking_length]

theorem buildDivisionGroups_map_division (shuffle : List Player → List Player)
    (gsize : Nat) (d : String) (ps : List Player) :
    ∀ g ∈ buildDivisionGroups shuffle gsize d ps, g.division = d := by
  intro g hg
  have hmap : (buildDivisionGroups shuffle gsize d ps).map Group.division =
      ((sortByRanking ps).take (ceilDiv ps.length gsize)).enum.map (fun _ => d) := by
    unfold buildDivisionGroups
    rw [rrDistribute_map_inv Group.division (fun _ _ => rfl), List.map_map]
    rfl
  have : g.division ∈ (buildDivisionGroups shuffle gsize d ps).map Group.division :=
    List.mem_map_of_mem Group.division hg
  rw [hmap] at this
  obtain ⟨_, _, h⟩ := List.mem_map.mp this
  exact h.symm

theorem attachMatches_division (g : Group) : (attachMatches g).division = g.division := rfl

theorem attachMatches_group_id (g : Group) : (attachMatches g).group_id = g.group_id := rfl

theorem attachMatches_players (g : Group) : (attachMatches g).players = g.players := rfl

/-- ceil(n/g) is at least 1 for a nonempty player list. -/
theorem ceilDiv_pos {n g : Nat} (hn : 1 ≤ n) (hg : 1 ≤ g) : 1 ≤ ceilDiv n g := by
  unfold ceilDiv
  rw [Nat.one_le_div_iff (by omega)]
  omega

/-- A division with at least one player contributes at least one group, and
all its groups carry the division name. -/
theorem exists_group_of_division (shuffle : List Player → List Player) (inp : Input)
    (d : String) (ps : List Player)
    (hg : 1 ≤ inp.options.group_size)
    (hd : (d, ps) ∈ inp.players_by_division)
    (hne : ps ≠ []) :
    ∃ gr ∈ playerGroups shuffle inp, gr.division = d := by
  have hn : 1 ≤ ps.length := List.length_pos.mpr hne
  have hlen : (buildDivisionGroups shuffle inp.options.group_size d ps).length ≥ 1 := by
    rw [buildDivisionGroups_length]
    exact le_min (ceilDiv_pos hn hg) hn
  have hex : ∃ g0, g0 ∈ buildDivisionGroups shuffle inp.options.group_size d ps :=
    List.exists_mem_of_length_pos (by omega)
  obtain ⟨g0, hg0⟩ := hex
  refine ⟨attachMatches g0, ?_, ?_⟩
  · unfold playerGroups
    refine List.mem_map_of_mem attachMatches ?_
    rw [List.mem_flatMap]
    exact ⟨(d, ps), hd, hg0⟩
  · rw [attachMatches_division]
    exact buildDivisionGroups_map_division _ _ _ _ _ hg0

/-! ### Except plumbing -/

/-- If some element of the list fails and every failure satisfies P, then
mapM fails with an error satisfying P. -/
theorem mapM_except_error {α β : Type} (f : α → Except KeyErr β) (P : KeyErr → Prop)
    (l : List α)
    (hshape : ∀ y ∈ l, ∀ e, f y = .error e → P e)
    (x : α) (hx : x ∈ l) (hxe : ∃ e, f x = .error e) :
    ∃ e, l.mapM f = .error e ∧ P e := by
  induction l with
  | nil => cases hx
  | cons a as ih =>
    rw [List.mapM_cons]
    cases hfa : f a with
    | error e =>
      refine ⟨e, ?_, hshape a (List.mem_cons_self _ _) e hfa⟩
      rfl
    | ok b =>
      rcases List.mem_cons.mp hx with rfl | hx2
      · obtain ⟨e, he⟩ := hxe
        rw [hfa] at he
        cases he
      · obtain ⟨e, hmap, hPe⟩ :=
          ih (fun y hy => hshape y (List.mem_cons_of_mem a hy)) hx2
        refine ⟨e, ?_, hPe⟩
        show (as.mapM f >>= fun ys => pure (b :: ys)) = Except.error e
        rw [hmap]
        rfl

theorem phase3fun_error_shape (inp : Input) (g : Group) (e : KeyErr)
    (h : phase3fun inp g = .error e) :
    e = .availability g.division ∧ inp.division_availability.lookup g.division = none := by
  unfold phase3fun dgetE at h
  cases hl : inp.division_availability.lookup g.division with
  | none =>
    rw [hl] at h
    cases h
    exact ⟨rfl, rfl⟩
  | some v =>
    rw [hl] at h
    cases h

/-! ### C10 -/

/-- C10: if any division that has at least one player is absent from the
division-availability map, constraint generation raises a key-lookup error
while building the division-availability constraints; no model is built. -/
theorem c10_missing_division_availability_raises
    (shuffle : List Player → List Player) (inp : Input) (d : String) (ps : List Player)
    (hg : 1 ≤ inp.options.group_size)
    (hd : (d, ps) ∈ inp.players_by_division)
    (hne : ps ≠ [])
    (hmiss : inp.division_availability.lookup d = none) :
    ∃ d2, constraints inp (playerGroups shuffle inp) = .error (.availability d2) ∧
      inp.division_availability.lookup d2 = none := by
  obtain ⟨gr, hgr, hgrd⟩ := exists_group_of_division shuffle inp d ps hg hd hne
  have hfail : ∃ e, phase3fun inp gr = .error e := by
    refine ⟨.availability gr.division, ?_⟩
    unfold phase3fun dgetE
    rw [hgrd, hmiss]
    rfl
  obtain ⟨e, hmapM, he⟩ := mapM_except_error (phase3fun inp)
    (fun e => ∃ d2, e = .availability d2 ∧ inp.division_availability.lookup d2 = none)
    (playerGroups shuffle inp)
    (fun y _ e hy =>
      ⟨y.division, (phase3fun_error_shape inp y e hy).1, (phase3fun_error_shape inp y e hy).2⟩)
    gr hgr hfail
  obtain ⟨d2, rfl, hd2⟩ := he
  refine ⟨d2, ?_, hd2⟩
  have h3 : phase3 inp (playerGroups shuffle inp) = .error (.availability d2) := by
    unfold phase3
    rw [hmapM]
    rfl
  unfold constraints
  rw [h3]
  rfl

/-! ### C8 -/

/-- C8: group construction is a pure function of the shuffle behaviour (the
seeded random source) and the input; two runs with the same shuffle produce
identical groups, group ids, player orders, seed flags and match ids. -/
theorem c8_groupbuilder_deterministic (sh1 sh2 : List Player → List Player)
    (inp : Input) (h : ∀ l, sh1 l = sh2 l) :
    playerGroups sh1 inp = playerGroups sh2 inp := by
  have hf : sh1 = sh2 := funext h
  rw [hf]

theorem c8_witness :
    (∀ l : List Player, (id : List Player → List Player) l = id l) ∧
      playerGroups id cex2Input = playerGroups id cex2Input :=
  ⟨fun _ => rfl, c8_groupbuilder_deterministic id id cex2Input (fun _ => rfl)⟩

/-! ### Match generation facts (towards C6) -/

theorem triangle_step (k : Nat) : k + k * (k - 1) / 2 = (k + 1) * k / 2 := by
  cases k with
  | zero => rfl
  | succ j =>
    obtain ⟨c, hc⟩ : 2 ∣ (j + 1) * j := by
      rcases Nat.even_or_odd j with h | h
      · exact Dvd.dvd.mul_left h.two_dvd _
      · obtain ⟨m, hm⟩ := h
        exact Dvd.dvd.mul_right ⟨m + 1, by omega⟩ _
    have h1 : (j + 1) * j / 2 = c := by rw [hc]; exact Nat.mul_div_cancel_left c (by omega)
    have h2 : (j + 1 + 1) * (j + 1) = 2 * (c + (j + 1)) := by
      calc (j + 1 + 1) * (j + 1) = (j + 1) * j + 2 * (j + 1) := by ring
        _ = 2 * c + 2 * (j + 1) := by rw [hc]
        _ = 2 * (c + (j + 1)) := by ring
    have h3 : (j + 1 + 1) * (j + 1) / 2 = c + (j + 1) := by
      rw [h2]; exact Nat.mul_div_cancel_left _ (by omega)
    have h0 : (j + 1 : Nat) - 1 = j := rfl
    rw [h0, h1, h3]
    omega

theorem innerMatches_length (gid d : String) (p : Player) (qs : List Player) (c : Nat) :
    (innerMatches gid d p qs c).length = qs.length := by
  induction qs generalizing c with
  | nil => rfl
  | cons q qs ih => simp [innerMatches, ih]

theorem outerMatches_length (gid d : String) (ps : List Player) (c : Nat) :
    (outerMatches gid d ps c).length = ps.length * (ps.length - 1) / 2 := by
  induction ps generalizing c with
  | nil => rfl
  | cons p rest ih =>
    rw [outerMatches, List.length_append, innerMatches_length, ih]
    simpa using triangle_step rest.length

theorem innerMatches_map_id (gid d : String) (p : Player) (qs : List Player) (c : Nat) :
    (innerMatches gid d p qs c).map Match.match_id =
      (List.range' c qs.length).map (fun t => gid ++ "-" ++ natRepr t) := by
  induction qs generalizing c with
  | nil => rfl
  | cons q qs ih => simp [innerMatches, List.range'_succ, ih, mkMatch]

theorem outerMatches_map_id (gid d : String) (ps : List Player) (c : Nat) :
    (outerMatches gid d ps c).map Match.match_id =
      (List.range' c (ps.length * (ps.length - 1) / 2)).map
        (fun t => gid ++ "-" ++ natRepr t) := by
  induction ps generalizing c with
  | nil => rfl
  | cons p rest ih =>
    rw [outerMatches, List.map_append, innerMatches_map_id, ih]
    have harr := List.range'_append c rest.length (rest.length * (rest.length - 1) / 2) 1
    rw [← List.map_append, one_mul] at *
    rw [harr]
    have : rest.length * (rest.length - 1) / 2 + rest.length =
        (p :: rest).length * ((p :: rest).length - 1) / 2 := by
      simpa [Nat.add_comm] using triangle_step rest.length
    rw [this]

/-- The unordered pairs of a list in iteration order: each element paired
with every later element. -/
def orderedPairs : List Player → List (Player × Player)
  | [] => []
  | p :: rest => rest.map (fun q => (p, q)) ++ orderedPairs rest

theorem innerMatches_map_pair (gid d : String) (p : Player) (qs : List Player) (c : Nat) :
    (innerMatches gid d p qs c).map (fun m => (m.player1, m.player2)) =
      qs.map (fun q => (p, q)) := by
  induction qs generalizing c with
  | nil => rfl
  | cons q qs ih => simp [innerMatches, ih, mkMatch]

theorem outerMatches_map_pair (gid d : String) (ps : List Player) (c : Nat) :
    (outerMatches gid d ps c).map (fun m => (m.player1, m.player2)) = orderedPairs ps := by
  induction ps generalizing c with
  | nil => rfl
  | cons p rest ih =>
    rw [outerMatches, List.map_append, innerMatches_map_pair, ih, orderedPairs]

/-- The generated match ids of one group are pairwise distinct. -/
theorem outerMatches_id_nodup (gid d : String) (ps : List Player) (c : Nat) :
    ((outerMatches gid d ps c).map Match.match_id).Nodup := by
  rw [outerMatches_map_id]
  refine List.Nodup.map ?_ (List.nodup_range' ..)
  intro t1 t2 ht
  exact (hyphen_nat_suffix_inj ht).2

theorem outerMatches_nodup (gid d : String) (ps : List Player) (c : Nat) :
    (outerMatches gid d ps c).Nodup :=
  (outerMatches_id_nodup gid d ps c).of_map

/-- Total number of occurrences of a match in the matches-by-player index. -/
def mbpTotal (m : Match) (idx : List (String × List Match)) : Nat :=
  (idx.map (fun e => e.2.count m)).sum

theorem mbpAppend_total (m m2 : Match) (idx : List (String × List Match)) (k : String) :
    mbpTotal m (mbpAppend idx k m2) = mbpTotal m idx + (if m2 = m then 1 else 0) := by
  induction idx with
  | nil => simp [mbpAppend, mbpTotal, List.count_singleton]
  | cons e rest ih =>
    obtain ⟨k0, ms⟩ := e
    by_cases hk : k0 = k
    · simp [mbpAppend, hk, mbpTotal, List.count_append, List.count_singleton]
      omega
    · simp only [mbpAppend, hk, if_false, mbpTotal, List.map_cons, List.sum_cons] at *
      rw [ih]
      omega

theorem buildMbp_total_aux (m : Match) (ms : List Match)
    (idx : List (String × List Match)) :
    mbpTotal m (ms.foldl (fun idx m2 =>
        mbpAppend (mbpAppend idx m2.player1.player_id m2) m2.player2.player_id m2) idx) =
      mbpTotal m idx + 2 * ms.count m := by
  induction ms generalizing idx with
  | nil => simp
  | cons m2 rest ih =>
    rw [List.foldl_cons, ih, mbpAppend_total, mbpAppend_total, List.count_cons]
    by_cases hm : m2 = m <;> simp [hm] <;> omega

theorem buildMbp_total (m : Match) (ms : List Match) :
    mbpTotal m (buildMbp ms) = 2 * ms.count m := by
  unfold buildMbp
  rw [buildMbp_total_aux]
  simp [mbpTotal]

/-! ### C6 -/

/-- C6: a group of size k yields exactly k(k-1)/2 matches, with sequential
match ids group_id-1 onward, pairing players in group order (each player
with every later one), and the matches-by-player index holds each generated
match exactly twice across all players. -/
theorem c6_match_generation (gr : Group) :
    (playerMatches gr).1.length = gr.players.length * (gr.players.length - 1) / 2 ∧
    (playerMatches gr).1.map Match.match_id =
      (List.range' 1 (gr.players.length * (gr.players.length - 1) / 2)).map
        (fun t => gr.group_id ++ "-" ++ natRepr t) ∧
    (playerMatches gr).1.map (fun m => (m.player1, m.player2)) = orderedPairs gr.players ∧
    ∀ m ∈ (playerMatches gr).1, mbpTotal m (playerMatches gr).2 = 2 := by
  refine ⟨outerMatches_length .., outerMatches_map_id .., outerMatches_map_pair .., ?_⟩
  intro m hm
  show mbpTotal m (buildMbp (outerMatches gr.group_id gr.division gr.players 1)) = 2
  rw [buildMbp_total,
    List.count_eq_one_of_mem (outerMatches_nodup gr.group_id gr.division gr.players 1) hm]

/-! ### Extraction facts (towards C9) -/

theorem nodup_flatMap_disjoint {α β : Type} {l : List α} (f : α → List β)
    (hl : l.Nodup)
    (hinner : ∀ a ∈ l, (f a).Nodup)
    (hdisj : ∀ a ∈ l, ∀ b ∈ l, a ≠ b → ∀ x ∈ f a, x ∉ f b) :
    (l.flatMap f).Nodup := by
  induction l with
  | nil => simp
  | cons a rest ih =>
    rw [List.flatMap_cons]
    refine List.Nodup.append (hinner a (List.mem_cons_self _ _))
      (ih hl.of_cons (fun b hb => hinner b (List.mem_cons_of_mem a hb))
        (fun b hb c hc hbc => hdisj b (List.mem_cons_of_mem a hb) c
          (List.mem_cons_of_mem a hc) hbc)) ?_
    intro x hx hx2
    rw [List.mem_flatMap] at hx2
    obtain ⟨b, hb, hxb⟩ := hx2
    have hab : a ≠ b := by
      rintro rfl
      exact (List.nodup_cons.mp hl).1 hb
    exact hdisj a (List.mem_cons_self _ _) b (List.mem_cons_of_mem a hb) hab x hx hxb

theorem mem_extractAssignments (inp : Input) (gs : List Group) (val : String → ℚ)
    (a : Assignment) :
    a ∈ extractAssignments inp gs val ↔
      a.matchv ∈ allMatches gs ∧ a.slot ∈ inp.slots ∧
        val (assignVarName a.matchv a.slot) > 9 / 10 := by
  unfold extractAssignments
  constructor
  · intro h
    rw [List.mem_flatMap] at h
    obtain ⟨g, hg, h⟩ := h
    rw [List.mem_flatMap] at h
    obtain ⟨m, hm, h⟩ := h
    rw [List.mem_filterMap] at h
    obtain ⟨s, hs, hsome⟩ := h
    split at hsome
    next hv =>
      cases hsome
      exact ⟨List.mem_flatMap.mpr ⟨g, hg, hm⟩, hs, hv⟩
    next => cases hsome
  · rintro ⟨hm, hs, hv⟩
    obtain ⟨g, hg, hmg⟩ := List.mem_flatMap.mp hm
    rw [List.mem_flatMap]
    refine ⟨g, hg, ?_⟩
    rw [List.mem_flatMap]
    refine ⟨a.matchv, hmg, ?_⟩
    rw [List.mem_filterMap]
    exact ⟨a.slot, hs, by rw [if_pos hv]⟩

theorem extractAssignments_nodup (inp : Input) (gs : List Group) (val : String → ℚ)
    (hm : (allMatches gs).Nodup) (hs : inp.slots.Nodup) :
    (extractAssignments inp gs val).Nodup := by
  have heq := List.flatMap_assoc gs Group.gmatches
    (fun m => inp.slots.filterMap (fun s =>
      if val (assignVarName m s) > 9 / 10 then
        some ({ matchv := m, slot := s } : Assignment)
      else none))
  unfold extractAssignments
  rw [← heq]
  refine nodup_flatMap_disjoint _ hm ?_ ?_
  · intro m _
    refine List.Nodup.filterMap ?_ hs
    intro s1 s2 b hb1 hb2
    split at hb1
    next =>
      cases hb1
      split at hb2
      next => cases hb2; rfl
      next => cases hb2
    next => cases hb1
  · intro m1 _ m2 _ hne x hx1 hx2
    rw [List.mem_filterMap] at hx1 hx2
    obtain ⟨s1, _, h1⟩ := hx1
    obtain ⟨s2, _, h2⟩ := hx2
    split at h1
    next =>
      cases h1
      split at h2
      next => cases h2; exact hne rfl
      next => cases h2
    next => cases h1

/-! ### C9 -/

/-- C9: the extractor emits exactly one Assignment for each (match, slot)
pair whose solved value exceeds 0.9, none for a pair at or below it, and an
all-at-or-below run yields an empty assignment list. -/
theorem c9_extraction (inp : Input) (gs : List Group) (val : String → ℚ)
    (hm : (allMatches gs).Nodup) (hs : inp.slots.Nodup) :
    (∀ m ∈ allMatches gs, ∀ s ∈ inp.slots, val (assignVarName m s) > 9 / 10 →
      (extractAssignments inp gs val).count { matchv := m, slot := s } = 1) ∧
    (∀ a ∈ extractAssignments inp gs val,
      a.matchv ∈ allMatches gs ∧ a.slot ∈ inp.slots ∧
        val (assignVarName a.matchv a.slot) > 9 / 10) ∧
    ((∀ m ∈ allMatches gs, ∀ s ∈ inp.slots, val (assignVarName m s) ≤ 9 / 10) →
      extractAssignments inp gs val = []) := by
  refine ⟨?_, ?_, ?_⟩
  · intro m hmm s hss hv
    exact List.count_eq_one_of_mem (extractAssignments_nodup inp gs val hm hs)
      ((mem_extractAssignments inp gs val _).mpr ⟨hmm, hss, hv⟩)
  · intro a ha
    exact (mem_extractAssignments inp gs val a).mp ha
  · intro hall
    rw [List.eq_nil_iff_forall_not_mem]
    intro a ha
    obtain ⟨h1, h2, h3⟩ := (mem_extractAssignments inp gs val a).mp ha
    exact absurd h3 (not_lt.mpr (hall a.matchv h1 a.slot h2))

/-- The solved values of the witness run: only the variable putting match
D-1-1 on slot C1-A is 1. -/
def c9Val : String → ℚ := fun n => if n = "D-1-1-C1-A" then 1 else 0

theorem c9_witness :
    (allMatches witGroups).Nodup ∧ witInput.slots.Nodup ∧
      ((∀ m ∈ allMatches witGroups, ∀ s ∈ witInput.slots,
          c9Val (assignVarName m s) > 9 / 10 →
          (extractAssignments witInput witGroups c9Val).count { matchv := m, slot := s } = 1) ∧
        (∀ a ∈ extractAssignments witInput witGroups c9Val,
          a.matchv ∈ allMatches witGroups ∧ a.slot ∈ witInput.slots ∧
            c9Val (assignVarName a.matchv a.slot) > 9 / 10) ∧
        ((∀ m ∈ allMatches witGroups, ∀ s ∈ witInput.slots,
            c9Val (assignVarName m s) ≤ 9 / 10) →
          extractAssignments witInput witGroups c9Val = [])) :=
  ⟨by decide, by decide, c9_extraction witInput witGroups c9Val (by decide) (by decide)⟩

/-! ### Generic list and Except lemmas -/

theorem nodup_flatMap_pairwise {α β : Type} {l : List α} (f : α → List β)
    (hinner : ∀ a ∈ l, (f a).Nodup)
    (hpair : l.Pairwise (fun a b => ∀ x ∈ f a, x ∉ f b)) :
    (l.flatMap f).Nodup := by
  induction l with
  | nil => simp
  | cons a rest ih =>
    rw [List.flatMap_cons]
    rw [List.pairwise_cons] at hpair
    refine List.Nodup.append (hinner a (List.mem_cons_self _ _))
      (ih (fun b hb => hinner b (List.mem_cons_of_mem a hb)) hpair.2) ?_
    intro x hx hx2
    obtain ⟨b, hb, hxb⟩ := List.mem_flatMap.mp hx2
    exact hpair.1 b hb x hx hxb

theorem mapM_ok_members {α β : Type} (f : α → Except KeyErr β) (l : List α) (ys : List β)
    (h : l.mapM f = .ok ys) : ∀ y ∈ ys, ∃ x ∈ l, f x = .ok y := by
  induction l generalizing ys with
  | nil =>
    rw [List.mapM_nil] at h
    cases h
    simp
  | cons a as ih =>
    rw [List.mapM_cons] at h
    cases hfa : f a with
    | error e =>
      rw [hfa] at h
      cases h
    | ok b =>
      rw [hfa] at h
      cases hmas : as.mapM f with
      | error e =>
        rw [hmas] at h
        cases h
      | ok ys2 =>
        rw [hmas] at h
        cases h
        intro y hy
        rcases List.mem_cons.mp hy with rfl | hy2
        · exact ⟨a, List.mem_cons_self _ _, hfa⟩
        · obtain ⟨x, hx, hfx⟩ := ih ys2 hmas y hy2
          exact ⟨x, List.mem_cons_of_mem a hx, hfx⟩

theorem mapM_flatten_members {α : Type} (f : α → Except KeyErr (List Constr)) (l : List α)
    (L : List Constr) (h : (l.mapM f).map List.flatten = .ok L) :
    ∀ c ∈ L, ∃ x ∈ l, ∃ y, f x = .ok y ∧ c ∈ y := by
  cases hm : l.mapM f with
  | error e =>
    rw [hm] at h
    cases h
  | ok ls =>
    rw [hm] at h
    cases h
    intro c hc
    obtain ⟨l2, hl2, hcl2⟩ := List.mem_flatten.mp hc
    obtain ⟨x, hx, hfx⟩ := mapM_ok_members f l ls hm l2 hl2
    exact ⟨x, hx, l2, hfx, hcl2⟩

theorem string_append_cancel_left (s a b : String) (h : s ++ a = s ++ b) : a = b := by
  have hd := congrArg String.data h
  rw [string_data_append, string_data_append] at hd
  exact String.ext (List.append_cancel_left hd)

/-! ### Uniqueness of generated identifiers -/

/-- The group list before matches are attached. -/
def bigGroups (sh : List Player → List Player) (inp : Input) : List Group :=
  inp.players_by_division.flatMap
    (fun e => buildDivisionGroups sh inp.options.group_size e.1 e.2)

theorem playerGroups_eq_big (sh : List Player → List Player) (inp : Input) :
    playerGroups sh inp = (bigGroups sh inp).map attachMatches := rfl

theorem buildDivisionGroups_map_gid (sh : List Player → List Player) (gsize : Nat)
    (d : String) (ps : List Player) :
    (buildDivisionGroups sh gsize d ps).map Group.group_id =
      (List.range (min (ceilDiv ps.length gsize) ps.length)).map
        (fun i => d ++ "-" ++ natRepr (i + 1)) := by
  unfold buildDivisionGroups
  rw [rrDistribute_map_inv Group.group_id (fun _ _ => rfl), List.map_map]
  have hc : (Group.group_id ∘ fun ip : Nat × Player => mkSeedGroup d ip.1 ip.2) =
      (fun i => d ++ "-" ++ natRepr (i + 1)) ∘ Prod.fst := rfl
  rw [hc, ← List.map_map, List.enum_map_fst, List.length_take, sortByRanking_length]

theorem bigGroups_gid_nodup (sh : List Player → List Player) (inp : Input)
    (hdiv : (inp.players_by_division.map Prod.fst).Nodup) :
    ((bigGroups sh inp).map Group.group_id).Nodup := by
  unfold bigGroups
  rw [List.map_flatMap]
  refine nodup_flatMap_pairwise _ ?_ ?_
  · intro e _
    rw [buildDivisionGroups_map_gid]
    refine List.Nodup.map ?_ (List.nodup_range _)
    intro i j hij
    have := (hyphen_nat_suffix_inj hij).2
    omega
  · have hp : inp.players_by_division.Pairwise (fun e1 e2 => e1.1 ≠ e2.1) :=
      List.pairwise_map.mp hdiv
    refine hp.imp ?_
    intro e1 e2 hne x hx1 hx2
    rw [buildDivisionGroups_map_gid] at hx1 hx2
    obtain ⟨i, _, hi⟩ := List.mem_map.mp hx1
    obtain ⟨j, _, hj⟩ := List.mem_map.mp hx2
    exact hne (hyphen_nat_suffix_inj (hi.trans hj.symm)).1

theorem allMatches_playerGroups (sh : List Player → List Player) (inp : Input) :
    allMatches (playerGroups sh inp) =
      (bigGroups sh inp).flatMap
        (fun g => outerMatches g.group_id g.division g.players 1) := by
  rw [playerGroups_eq_big]
  unfold allMatches
  rw [List.flatMap_map]
  rfl

/-- C7's first half as a helper: across all divisions and groups the
generated match ids are pairwise distinct. -/
theorem matchIds_nodup (sh : List Player → List Player) (inp : Input)
    (hdiv : (inp.players_by_division.map Prod.fst).Nodup) :
    ((allMatches (playerGroups sh inp)).map Match.match_id).Nodup := by
  rw [allMatches_playerGroups, List.map_flatMap]
  refine nodup_flatMap_pairwise _ ?_ ?_
  · intro g _
    exact outerMatches_id_nodup g.group_id g.division g.players 1
  · have hgid := bigGroups_gid_nodup sh inp hdiv
    have hp : (bigGroups sh inp).Pairwise (fun g1 g2 => g1.group_id ≠ g2.group_id) :=
      List.pairwise_map.mp hgid
    refine hp.imp ?_
    intro g1 g2 hne x hx1 hx2
    rw [outerMatches_map_id] at hx1 hx2
    obtain ⟨i, _, hi⟩ := List.mem_map.mp hx1
    obtain ⟨j, _, hj⟩ := List.mem_map.mp hx2
    exact hne (hyphen_nat_suffix_inj (hi.trans hj.symm)).1

/-! ### Shapes of the generated constraints -/

theorem constraints_ok_parts (inp : Input) (gs : List Group) (cs : List Constr)
    (h : constraints inp gs = .ok cs) :
    ∃ c3 c4 c5 c6, phase3 inp gs = .ok c3 ∧ phase4 inp gs = .ok c4 ∧
      phase5 inp gs = .ok c5 ∧ phase6 inp gs = .ok c6 ∧
      cs = phase1 inp gs ++ phase2 inp gs ++ c3 ++ c4 ++ c5 ++ c6 := by
  unfold constraints at h
  cases h3 : phase3 inp gs with
  | error e => rw [h3] at h; cases h
  | ok c3 =>
    rw [h3] at h
    cases h4 : phase4 inp gs with
    | error e => rw [h4] at h; cases h
    | ok c4 =>
      rw [h4] at h
      cases h5 : phase5 inp gs with
      | error e => rw [h5] at h; cases h
      | ok c5 =>
        rw [h5] at h
        cases h6 : phase6 inp gs with
        | error e => rw [h6] at h; cases h
        | ok c6 =>
          rw [h6] at h
          cases h
          exact ⟨c3, c4, c5, c6, rfl, rfl, rfl, rfl, rfl⟩

theorem phase3fun_ok (inp : Input) (g : Group) (y : List Constr)
    (h : phase3fun inp g = .ok y) :
    ∃ allowed, inp.division_availability.lookup g.division = some allowed ∧
      y = g.gmatches.flatMap (availConstrs inp.slots allowed) := by
  unfold phase3fun dgetE at h
  cases hl : inp.division_availability.lookup g.division with
  | none => rw [hl] at h; cases h
  | some allowed =>
    rw [hl] at h
    cases h
    exact ⟨allowed, rfl, rfl⟩

theorem availConstrs_members (slots : List Slot) (allowed : List String) (m : Match) :
    ∀ c ∈ availConstrs slots allowed m, c.rel = .eq ∧ c.rhs = 0 := by
  intro c hc
  obtain ⟨s, _, hsome⟩ := List.mem_filterMap.mp hc
  split at hsome
  next => cases hsome
  next =>
    cases hsome
    exact ⟨rfl, rfl⟩

theorem phase3_ok_members (inp : Input) (gs : List Group) (l : List Constr)
    (h : phase3 inp gs = .ok l) : ∀ c ∈ l, c.rel = .eq ∧ c.rhs = 0 := by
  intro c hc
  obtain ⟨g, _, y, hok, hcy⟩ := mapM_flatten_members (phase3fun inp) gs l h c hc
  obtain ⟨allowed, _, rfl⟩ := phase3fun_ok inp g y hok
  obtain ⟨m, _, hcm⟩ := List.mem_flatMap.mp hcy
  exact availConstrs_members inp.slots allowed m c hcm

theorem phase4fun_ok (inp : Input) (g : Group) (p : Player) (y : List Constr)
    (h : phase4fun inp g p = .ok y) :
    ∃ ms, g.matches_by_player.lookup p.player_id = some ms ∧
      y = inp.slots_by_time_block.map
        (fun e => playerBlockConstr p.player_id ms e.1 e.2) := by
  unfold phase4fun dgetE at h
  cases hl : g.matches_by_player.lookup p.player_id with
  | none => rw [hl] at h; cases h
  | some ms =>
    rw [hl] at h
    cases h
    exact ⟨ms, rfl, rfl⟩

theorem phase4_ok_members (inp : Input) (gs : List Group) (l : List Constr)
    (h : phase4 inp gs = .ok l) :
    ∀ c ∈ l, c.rel = .le ∧ ∃ x, c.cname = "player-" ++ x := by
  intro c hc
  obtain ⟨g, _, y, hok, hcy⟩ := mapM_flatten_members _ gs l h c hc
  obtain ⟨y2, _, y3, hok2, hcy3⟩ :=
    mapM_flatten_members (phase4fun inp g) g.players y hok c hcy
  obtain ⟨ms, _, rfl⟩ := phase4fun_ok inp g y2 y3 hok2
  obtain ⟨e, _, heq⟩ := List.mem_map.mp hcy3
  cases heq
  exact ⟨rfl, y2.player_id ++ "-" ++ e.1, rfl⟩

theorem demandConstrs_members (pid : String) (ms : List Match) (demands : List String)
    (slots : List Slot) :
    ∀ c ∈ demandConstrs pid ms demands slots, c.rel = .eq ∧ c.rhs = 0 := by
  intro c hc
  obtain ⟨s, _, hcs⟩ := List.mem_flatMap.mp hc
  split at hcs
  next => cases hcs
  next =>
    obtain ⟨m, _, heq⟩ := List.mem_map.mp hcs
    cases heq
    exact ⟨rfl, rfl⟩

theorem phase5fun_ok (inp : Input) (g : Group) (p : Player) (y : List Constr)
    (h : phase5fun inp g p = .ok y) :
    y = [] ∨ ∃ ms demands, y = demandConstrs p.player_id ms demands inp.slots := by
  unfold phase5fun at h
  cases hl : inp.time_block_demands_by_player.lookup p.player_id with
  | none =>
    rw [hl] at h
    cases h
    exact Or.inl rfl
  | some demands =>
    rw [hl] at h
    unfold dgetE at h
    cases hl2 : g.matches_by_player.lookup p.player_id with
    | none => rw [hl2] at h; cases h
    | some ms =>
      rw [hl2] at h
      cases h
      exact Or.inr ⟨ms, demands, rfl⟩

theorem phase5_ok_members (inp : Input) (gs : List Group) (l : List Constr)
    (h : phase5 inp gs = .ok l) : ∀ c ∈ l, c.rel = .eq ∧ c.rhs = 0 := by
  intro c hc
  obtain ⟨g, _, y, hok, hcy⟩ := mapM_flatten_members _ gs l h c hc
  obtain ⟨y2, _, y3, hok2, hcy3⟩ :=
    mapM_flatten_members (phase5fun inp g) g.players y hok c hcy
  rcases phase5fun_ok inp g y2 y3 hok2 with rfl | ⟨ms, demands, rfl⟩
  · cases hcy3
  · exact demandConstrs_members y2.player_id ms demands inp.slots c hcy3

theorem tripleStep_members (inp : Input) (g : Group) (p : Player)
    (t1 t2 t3 : String) (ctr : Nat) (r : Nat × List Constr)
    (h : tripleStep inp g p t1 t2 t3 ctr = .ok r) :
    ∀ c ∈ r.2, (c.rel = .le ∨ c.rel = .ge) ∧ (c.rhs = 0 ∨ c.rhs = 2) := by
  unfold tripleStep at h
  cases hd1 : dgetE inp.time_block_ranking t1 (.ranking t1) with
  | error e => rw [hd1] at h; cases h
  | ok r1 =>
    rw [hd1] at h
    cases hd2 : dgetE inp.time_block_ranking t2 (.ranking t2) with
    | error e => rw [hd2] at h; cases h
    | ok r2 =>
      rw [hd2] at h
      cases hd3 : dgetE inp.time_block_ranking t3 (.ranking t3) with
      | error e => rw [hd3] at h; cases h
      | ok r3 =>
        rw [hd3] at h
        have h2 : (if (r2 - r1 ≠ 1) ∨ ((r3 - r2 ≠ 1) ∧ (r3 - r1 ≠ 2)) then
              Except.ok (ctr, ([] : List Constr))
            else
              match dgetE g.matches_by_player p.player_id (.mbp p.player_id) with
              | .error e => .error e
              | .ok ms => Except.ok (ctr + 3, tripleGen inp ms t1 t2 t3 ctr)) =
            Except.ok r := h
        by_cases hguard : (r2 - r1 ≠ 1) ∨ ((r3 - r2 ≠ 1) ∧ (r3 - r1 ≠ 2))
        · rw [if_pos hguard] at h2
          cases h2
          intro c hc
          cases hc
        · rw [if_neg hguard] at h2
          cases hd4 : dgetE g.matches_by_player p.player_id (.mbp p.player_id) with
          | error e => rw [hd4] at h2; cases h2
          | ok ms =>
            rw [hd4] at h2
            cases h2
            intro c hc
            simp only [tripleGen, linkConstrs, List.cons_append, List.nil_append,
              List.mem_cons, List.mem_singleton, List.not_mem_nil, or_false] at hc
            rcases hc with hc | hc | hc | hc | hc | hc | hc <;> subst hc <;>
              exact ⟨by simp, by simp⟩

theorem phase6Fold_members (inp : Input)
    (items : List (Group × Player × String × String × String)) :
    ∀ (ctr : Nat) (r : Nat × List Constr), phase6Fold inp items ctr = .ok r →
      ∀ c ∈ r.2, (c.rel = .le ∨ c.rel = .ge) ∧ (c.rhs = 0 ∨ c.rhs = 2) := by
  induction items with
  | nil =>
    intro ctr r h
    cases h
    intro c hc
    cases hc
  | cons x xs ih =>
    intro ctr r h
    rw [phase6Fold] at h
    cases hts : tripleStep inp x.1 x.2.1 x.2.2.1 x.2.2.2.1 x.2.2.2.2 ctr with
    | error e => rw [hts] at h; cases h
    | ok s =>
      rw [hts] at h
      have h2 : (match phase6Fold inp xs s.1 with
          | .error e => (Except.error e : Except KeyErr (Nat × List Constr))
          | .ok r => Except.ok (r.1, s.2 ++ r.2)) = Except.ok r := h
      cases hfold : phase6Fold inp xs s.1 with
      | error e => rw [hfold] at h2; cases h2
      | ok r2 =>
        rw [hfold] at h2
        cases h2
        intro c hc
        rcases List.mem_append.mp hc with hc | hc
        · exact tripleStep_members inp x.1 x.2.1 x.2.2.1 x.2.2.2.1 x.2.2.2.2 ctr s hts c hc
        · exact ih s.1 r2 hfold c hc

theorem phase6_ok_members (inp : Input) (gs : List Group) (l : List Constr)
    (h : phase6 inp gs = .ok l) :
    ∀ c ∈ l, (c.rel = .le ∨ c.rel = .ge) ∧ (c.rhs = 0 ∨ c.rhs = 2) := by
  unfold phase6 at h
  cases hf : phase6Fold inp (phase6Items inp gs) 0 with
  | error e => rw [hf] at h; cases h
  | ok r =>
    rw [hf] at h
    cases h
    exact phase6Fold_members inp _ 0 r hf

theorem phase1_eq (inp : Input) (gs : List Group) :
    phase1 inp gs = (allMatches gs).map (matchOnceConstr inp.slots) := by
  unfold phase1 allMatches
  rw [List.map_flatMap]

theorem phase1_members (inp : Input) (gs : List Group) :
    ∀ c ∈ phase1 inp gs, c.rel = .eq ∧ c.rhs = 1 := by
  intro c hc
  rw [phase1_eq] at hc
  obtain ⟨m, _, heq⟩ := List.mem_map.mp hc
  cases heq
  exact ⟨rfl, rfl⟩

theorem phase2_members (inp : Input) (gs : List Group) :
    ∀ c ∈ phase2 inp gs, c.rel = .le ∧ c.rhs = 1 ∧ ∃ x, c.cname = "slot-" ++ x := by
  intro c hc
  obtain ⟨s, _, heq⟩ := List.mem_map.mp hc
  cases heq
  exact ⟨rfl, rfl, s.name, rfl⟩

theorem count_phase1_eq_one (inp : Input) (gs : List Group) (m : Match)
    (hm : m ∈ allMatches gs) (hnd : ((allMatches gs).map Match.match_id).Nodup) :
    (phase1 inp gs).count (matchOnceConstr inp.slots m) = 1 := by
  rw [phase1_eq]
  refine List.count_eq_one_of_mem ?_ (List.mem_map_of_mem _ hm)
  have hfac : (allMatches gs).map (matchOnceConstr inp.slots) =
      ((allMatches gs).map Match.match_id).map (fun mid =>
        { e := { terms := inp.slots.map (fun s => (VId.nm (mid ++ "-" ++ s.name), 1))
                 const := 0 }
          rel := .eq
          rhs := 1
          cname := "match-" ++ mid }) := by
    rw [List.map_map]
    rfl
  rw [hfac]
  refine List.Nodup.map ?_ hnd
  intro a b hab
  exact string_append_cancel_left "match-" a b (congrArg Constr.cname hab)

theorem count_phase2_eq_one (inp : Input) (gs : List Group) (s : Slot)
    (hs : s ∈ inp.slots) (hnd : (inp.slots.map Slot.name).Nodup) :
    (phase2 inp gs).count (slotCapConstr gs s) = 1 := by
  unfold phase2
  refine List.count_eq_one_of_mem ?_ (List.mem_map_of_mem _ hs)
  have hfac : inp.slots.map (slotCapConstr gs) =
      (inp.slots.map Slot.name).map (fun nm2 =>
        { e := { terms := gs.flatMap (fun g =>
                   g.gmatches.map (fun m => (VId.nm (m.match_id ++ "-" ++ nm2), 1)))
                 const := 0 }
          rel := .le
          rhs := 1
          cname := "slot-" ++ nm2 }) := by
    rw [List.map_map]
    rfl
  rw [hfac]
  refine List.Nodup.map ?_ hnd
  intro a b hab
  exact string_append_cancel_left "slot-" a b (congrArg Constr.cname hab)

theorem slot_ne_player_cname (x y : String) : ¬("slot-" ++ x = "player-" ++ y) := by
  intro h
  have h2 : (some 's' : Option Char) = some 'p' :=
    congrArg (fun t : String => t.data.head?) h
  exact absurd h2 (by decide)

/-! ### Binary sums -/

theorem sum_nonneg_01 {α : Type} (l : List α) (f : α → Int)
    (h : ∀ a ∈ l, f a = 0 ∨ f a = 1) : 0 ≤ (l.map f).sum := by
  induction l with
  | nil => simp
  | cons a rest ih =>
    rw [List.map_cons, List.sum_cons]
    have h1 := h a (List.mem_cons_self _ _)
    have h2 := ih (fun b hb => h b (List.mem_cons_of_mem a hb))
    rcases h1 with h1 | h1 <;> omega

theorem countP_eq_zero_of_sum {α : Type} (l : List α) (f : α → Int)
    (h01 : ∀ a ∈ l, f a = 0 ∨ f a = 1) (hs : (l.map f).sum = 0) :
    l.countP (fun a => f a == 1) = 0 := by
  induction l with
  | nil => simp
  | cons a rest ih =>
    rw [List.map_cons, List.sum_cons] at hs
    have h1 := h01 a (List.mem_cons_self _ _)
    have hnn := sum_nonneg_01 rest f (fun b hb => h01 b (List.mem_cons_of_mem a hb))
    have ha : f a = 0 := by rcases h1 with h1 | h1 <;> omega
    rw [List.countP_cons, ih (fun b hb => h01 b (List.mem_cons_of_mem a hb)) (by omega)]
    simp [ha]

theorem countP_eq_one_of_sum {α : Type} (l : List α) (f : α → Int)
    (h01 : ∀ a ∈ l, f a = 0 ∨ f a = 1) (hs : (l.map f).sum = 1) :
    l.countP (fun a => f a == 1) = 1 := by
  induction l with
  | nil => simp at hs
  | cons a rest ih =>
    rw [List.map_cons, List.sum_cons] at hs
    rw [List.countP_cons]
    have h1 := h01 a (List.mem_cons_self _ _)
    have hnn := sum_nonneg_01 rest f (fun b hb => h01 b (List.mem_cons_of_mem a hb))
    rcases h1 with h1 | h1
    · rw [ih (fun b hb => h01 b (List.mem_cons_of_mem a hb)) (by omega)]
      simp [h1]
    · rw [countP_eq_zero_of_sum rest f
        (fun b hb => h01 b (List.mem_cons_of_mem a hb)) (by omega)]
      simp [h1]

theorem countP_le_one_of_sum {α : Type} (l : List α) (f : α → Int)
    (h01 : ∀ a ∈ l, f a = 0 ∨ f a = 1) (hs : (l.map f).sum ≤ 1) :
    l.countP (fun a => f a == 1) ≤ 1 := by
  induction l with
  | nil => simp
  | cons a rest ih =>
    rw [List.map_cons, List.sum_cons] at hs
    rw [List.countP_cons]
    have h1 := h01 a (List.mem_cons_self _ _)
    have hnn := sum_nonneg_01 rest f (fun b hb => h01 b (List.mem_cons_of_mem a hb))
    rcases h1 with h1 | h1
    · have := ih (fun b hb => h01 b (List.mem_cons_of_mem a hb)) (by omega)
      simp [h1]
      omega
    · rw [countP_eq_zero_of_sum rest f
        (fun b hb => h01 b (List.mem_cons_of_mem a hb)) (by omega)]
      simp [h1]

/-! ### Evaluating the assignment constraints -/

theorem eval_matchOnce (slots : List Slot) (m : Match) (σ : VId → Int) :
    (matchOnceConstr slots m).e.eval σ =
      (slots.map (fun s => σ (VId.nm (assignVarName m s)))).sum := by
  unfold matchOnceConstr LinExpr.eval evalTerms
  rw [List.map_map]
  simp [Function.comp_def]

theorem eval_slotCap (gs : List Group) (s : Slot) (σ : VId → Int) :
    (slotCapConstr gs s).e.eval σ =
      ((allMatches gs).map (fun m => σ (VId.nm (assignVarName m s)))).sum := by
  unfold slotCapConstr LinExpr.eval evalTerms allMatches
  rw [List.map_flatMap, List.map_flatMap]
  simp [List.map_map, Function.comp_def]

/-! ### C1 -/

/-- C1: the model holds, for every match, exactly one equality constraint
forcing its variables to sum to 1 over all slots, and, for every slot,
exactly one constraint bounding the variables landing on it by 1; hence in
every feasible 0/1 solution every match sits in exactly one slot position
and every slot hosts at most one match. -/
theorem c1_assignment_constraints (sh : List Player → List Player) (inp : Input)
    (cs : List Constr) (σ : VId → Int)
    (hdiv : (inp.players_by_division.map Prod.fst).Nodup)
    (hslots : (inp.slots.map Slot.name).Nodup)
    (hok : constraints inp (playerGroups sh inp) = .ok cs) :
    (∀ m ∈ allMatches (playerGroups sh inp),
      cs.count (matchOnceConstr inp.slots m) = 1) ∧
    (∀ s ∈ inp.slots, cs.count (slotCapConstr (playerGroups sh inp) s) = 1) ∧
    (Binary σ → (∀ c ∈ cs, c.Sat σ) →
      (∀ m ∈ allMatches (playerGroups sh inp),
        inp.slots.countP (fun s => σ (VId.nm (assignVarName m s)) == 1) = 1) ∧
      (∀ s ∈ inp.slots,
        (allMatches (playerGroups sh inp)).countP
          (fun m => σ (VId.nm (assignVarName m s)) == 1) ≤ 1)) := by
  obtain ⟨c3, c4, c5, c6, h3, h4, h5, h6, rfl⟩ :=
    constraints_ok_parts inp (playerGroups sh inp) cs hok
  refine ⟨?_, ?_, ?_⟩
  · intro m hm
    simp only [List.count_append]
    rw [count_phase1_eq_one inp _ m hm (matchIds_nodup sh inp hdiv)]
    have z2 : (phase2 inp (playerGroups sh inp)).count (matchOnceConstr inp.slots m) = 0 := by
      rw [List.count_eq_zero]
      intro hmem
      exact Rel.noConfusion (phase2_members inp _ _ hmem).1
    have z3 : c3.count (matchOnceConstr inp.slots m) = 0 := by
      rw [List.count_eq_zero]
      intro hmem
      have h0 : (1 : Int) = 0 := (phase3_ok_members inp _ c3 h3 _ hmem).2
      exact absurd h0 (by decide)
    have z4 : c4.count (matchOnceConstr inp.slots m) = 0 := by
      rw [List.count_eq_zero]
      intro hmem
      exact Rel.noConfusion (phase4_ok_members inp _ c4 h4 _ hmem).1
    have z5 : c5.count (matchOnceConstr inp.slots m) = 0 := by
      rw [List.count_eq_zero]
      intro hmem
      have h0 : (1 : Int) = 0 := (phase5_ok_members inp _ c5 h5 _ hmem).2
      exact absurd h0 (by decide)
    have z6 : c6.count (matchOnceConstr inp.slots m) = 0 := by
      rw [List.count_eq_zero]
      intro hmem
      rcases (phase6_ok_members inp _ c6 h6 _ hmem).2 with h | h
      · have h0 : (1 : Int) = 0 := h
        exact absurd h0 (by decide)
      · have h0 : (1 : Int) = 2 := h
        exact absurd h0 (by decide)
    omega
  · intro s hs
    simp only [List.count_append]
    rw [count_phase2_eq_one inp _ s hs hslots]
    have z1 : (phase1 inp (playerGroups sh inp)).count
        (slotCapConstr (playerGroups sh inp) s) = 0 := by
      rw [List.count_eq_zero]
      intro hmem
      exact Rel.noConfusion (phase1_members inp _ _ hmem).1
    have z3 : c3.count (slotCapConstr (playerGroups sh inp) s) = 0 := by
      rw [List.count_eq_zero]
      intro hmem
      exact Rel.noConfusion (phase3_ok_members inp _ c3 h3 _ hmem).1
    have z4 : c4.count (slotCapConstr (playerGroups sh inp) s) = 0 := by
      rw [List.count_eq_zero]
      intro hmem
      obtain ⟨x, hx⟩ := (phase4_ok_members inp _ c4 h4 _ hmem).2
      exact slot_ne_player_cname s.name x hx
    have z5 : c5.count (slotCapConstr (playerGroups sh inp) s) = 0 := by
      rw [List.count_eq_zero]
      intro hmem
      exact Rel.noConfusion (phase5_ok_members inp _ c5 h5 _ hmem).1
    have z6 : c6.count (slotCapConstr (playerGroups sh inp) s) = 0 := by
      rw [List.count_eq_zero]
      intro hmem
      rcases (phase6_ok_members inp _ c6 h6 _ hmem).2 with h | h
      · have h0 : (1 : Int) = 0 := h
        exact absurd h0 (by decide)
      · have h0 : (1 : Int) = 2 := h
        exact absurd h0 (by decide)
    omega
  · intro hbin hsat
    constructor
    · intro m hm
      have hc0 : matchOnceConstr inp.slots m ∈ phase1 inp (playerGroups sh inp) := by
        rw [phase1_eq]
        exact List.mem_map_of_mem _ hm
      have hmem : matchOnceConstr inp.slots m ∈
          phase1 inp (playerGroups sh inp) ++ phase2 inp (playerGroups sh inp) ++
            c3 ++ c4 ++ c5 ++ c6 := by
        simp only [List.mem_append]
        exact Or.inl (Or.inl (Or.inl (Or.inl (Or.inl hc0))))
      have hsat0 := hsat _ hmem
      have heval : (inp.slots.map (fun s => σ (VId.nm (assignVarName m s)))).sum = 1 := by
        have h : (matchOnceConstr inp.slots m).e.eval σ = 1 := hsat0
        rw [eval_matchOnce] at h
        exact h
      exact countP_eq_one_of_sum inp.slots _ (fun s _ => hbin _) heval
    · intro s hs
      have hc0 : slotCapConstr (playerGroups sh inp) s ∈
          phase2 inp (playerGroups sh inp) :=
        List.mem_map_of_mem _ hs
      have hmem : slotCapConstr (playerGroups sh inp) s ∈
          phase1 inp (playerGroups sh inp) ++ phase2 inp (playerGroups sh inp) ++
            c3 ++ c4 ++ c5 ++ c6 := by
        simp only [List.mem_append]
        exact Or.inl (Or.inl (Or.inl (Or.inl (Or.inr hc0))))
      have hsat0 := hsat _ hmem
      have heval : ((allMatches (playerGroups sh inp)).map
          (fun m => σ (VId.nm (assignVarName m s)))).sum ≤ 1 := by
        have h : (slotCapConstr (playerGroups sh inp) s).e.eval σ ≤ 1 := hsat0
        rw [eval_slotCap] at h
        exact h
      exact countP_le_one_of_sum _ _ (fun m _ => hbin _) heval

/-- The constraint list the builder produces for witInput. -/
def witCs : List Constr := ((constraints witInput (playerGroups id witInput)).toOption).getD []

theorem c1_witness :
    (witInput.players_by_division.map Prod.fst).Nodup ∧
      (witInput.slots.map Slot.name).Nodup ∧
      constraints witInput (playerGroups id witInput) = .ok witCs ∧
      ((∀ m ∈ allMatches (playerGroups id witInput),
          witCs.count (matchOnceConstr witInput.slots m) = 1) ∧
        (∀ s ∈ witInput.slots,
          witCs.count (slotCapConstr (playerGroups id witInput) s) = 1) ∧
        (Binary witVal → (∀ c ∈ witCs, c.Sat witVal) →
          (∀ m ∈ allMatches (playerGroups id witInput),
            witInput.slots.countP
              (fun s => witVal (VId.nm (assignVarName m s)) == 1) = 1) ∧
          (∀ s ∈ witInput.slots,
            (allMatches (playerGroups id witInput)).countP
              (fun m => witVal (VId.nm (assignVarName m s)) == 1) ≤ 1))) :=
  ⟨by decide, by decide, by rfl,
    c1_assignment_constraints id witInput witCs witVal (by decide) (by decide) (by rfl)⟩

/-! ### C7 -/

theorem assign_name_split {mid1 mid2 c1 c2 t1 t2 : String}
    (hc1 : ∀ ch ∈ c1.data, ch ≠ '-') (hc2 : ∀ ch ∈ c2.data, ch ≠ '-')
    (ht1 : ∀ ch ∈ t1.data, ch ≠ '-') (ht2 : ∀ ch ∈ t2.data, ch ≠ '-')
    (h : mid1 ++ "-" ++ (c1 ++ "-" ++ t1) = mid2 ++ "-" ++ (c2 ++ "-" ++ t2)) :
    mid1 = mid2 ∧ c1 = c2 ∧ t1 = t2 := by
  have hd := congrArg String.data h
  simp only [string_data_append] at hd
  have hd2 : (mid1.data ++ '-' :: c1.data) ++ '-' :: t1.data =
      (mid2.data ++ '-' :: c2.data) ++ '-' :: t2.data := by
    simpa [List.append_assoc] using hd
  obtain ⟨hd3, ht⟩ := split_last_hyphen
    (fun hch => ht1 '-' hch rfl) (fun hch => ht2 '-' hch rfl) hd2
  obtain ⟨hd4, hcc⟩ := split_last_hyphen
    (fun hch => hc1 '-' hch rfl) (fun hch => hc2 '-' hch rfl) hd3
  exact ⟨String.ext hd4, String.ext hcc, String.ext ht⟩

/-- C7 as the specification states it: with unique division keys, any two
(match, slot) pairs differing in match id or slot identity get different
variable names, for every input. -/
def C7Statement : Prop :=
  ∀ (sh : List Player → List Player) (inp : Input),
    (inp.players_by_division.map Prod.fst).Nodup →
    ∀ m1 ∈ allMatches (playerGroups sh inp), ∀ m2 ∈ allMatches (playerGroups sh inp),
      ∀ s1 ∈ inp.slots, ∀ s2 ∈ inp.slots,
        (m1.match_id ≠ m2.match_id ∨ s1.court_id ≠ s2.court_id ∨
          s1.time_block_id ≠ s2.time_block_id) →
        assignVarName m1 s1 ≠ assignVarName m2 s2

/-- Two slots with hyphenated identifiers whose Slot.name collides. -/
def c7slot1 : Slot := { court_id := "B", time_block_id := "C-D", is_dummy := false }
def c7slot2 : Slot := { court_id := "B-C", time_block_id := "D", is_dummy := false }

def c7cexInput : Input :=
  { options := { group_size := 4, dummy_penalty := 1, back_to_back_penalty := 1 }
    players_by_division := [("D", [mkP "P1" 1, mkP "P2" 2])]
    slots := [c7slot1, c7slot2]
    division_availability := [("D", ["C-D", "D"])]
    time_block_ranking := [("C-D", 1), ("D", 2)]
    slots_by_time_block := [("C-D", [c7slot1]), ("D", [c7slot2])]
    time_block_demands_by_player := [] }

def c7Match : Match := mkMatch "D-1" "D" 1 { mkP "P1" 1 with seed := true } (mkP "P2" 2)

/-- C7 is false as stated: with court id B and time block C-D versus court
id B-C and time block D, two distinct (match, slot) pairs share the
variable name D-1-1-B-C-D. -/
theorem c7_counterexample : ¬C7Statement := by
  intro h
  exact h id c7cexInput (by decide)
    c7Match (by decide) c7Match (by decide)
    c7slot1 (by decide) c7slot2 (by decide)
    (by decide) (by decide)

/-- C7 amended: match ids are globally unique as claimed; variable names
are unique per (match id, slot identity) provided court and time block
identifiers contain no hyphen (without that proviso the name can collide,
see the counterexample). -/
theorem c7_unique_ids (sh : List Player → List Player) (inp : Input)
    (hdiv : (inp.players_by_division.map Prod.fst).Nodup)
    (hhyph : ∀ s ∈ inp.slots, (∀ ch ∈ s.court_id.data, ch ≠ '-') ∧
      (∀ ch ∈ s.time_block_id.data, ch ≠ '-')) :
    ((allMatches (playerGroups sh inp)).map Match.match_id).Nodup ∧
    (∀ m1 ∈ allMatches (playerGroups sh inp), ∀ m2 ∈ allMatches (playerGroups sh inp),
      ∀ s1 ∈ inp.slots, ∀ s2 ∈ inp.slots,
        assignVarName m1 s1 = assignVarName m2 s2 →
        m1 = m2 ∧ s1.court_id = s2.court_id ∧ s1.time_block_id = s2.time_block_id) := by
  refine ⟨matchIds_nodup sh inp hdiv, ?_⟩
  intro m1 hm1 m2 hm2 s1 hs1 s2 hs2 hname
  have hsplit := assign_name_split (hhyph s1 hs1).1 (hhyph s2 hs2).1
    (hhyph s1 hs1).2 (hhyph s2 hs2).2 hname
  refine ⟨?_, hsplit.2.1, hsplit.2.2⟩
  exact List.inj_on_of_nodup_map (matchIds_nodup sh inp hdiv) hm1 hm2 hsplit.1

theorem c7_witness :
    (witInput.players_by_division.map Prod.fst).Nodup ∧
      (∀ s ∈ witInput.slots, (∀ ch ∈ s.court_id.data, ch ≠ '-') ∧
        (∀ ch ∈ s.time_block_id.data, ch ≠ '-')) ∧
      (((allMatches (playerGroups id witInput)).map Match.match_id).Nodup ∧
        (∀ m1 ∈ allMatches (playerGroups id witInput),
          ∀ m2 ∈ allMatches (playerGroups id witInput),
          ∀ s1 ∈ witInput.slots, ∀ s2 ∈ witInput.slots,
            assignVarName m1 s1 = assignVarName m2 s2 →
            m1 = m2 ∧ s1.court_id = s2.court_id ∧
              s1.time_block_id = s2.time_block_id)) :=
  ⟨by decide, by decide, c7_unique_ids id witInput (by decide) (by decide)⟩

/-! ### Coefficient extraction (towards C4) -/

theorem coeffT_cons (x : VId × Int) (ts : List (VId × Int)) (v : VId) :
    coeffT (x :: ts) v = (if x.1 = v then x.2 else 0) + coeffT ts v := by
  rw [coeffT, List.filter_cons]
  by_cases hx : x.1 = v
  · rw [if_pos (by simpa using hx), if_pos hx]
    simp [coeffT]
  · rw [if_neg (by simpa using hx), if_neg hx]
    simp [coeffT]

/-- When every term whose variable hits v comes from one designated source
element, the total coefficient is that element's weight counted with its
multiplicity. -/
theorem coeffT_map_count {β : Type} [BEq β] [LawfulBEq β] (L : List β)
    (f : β → VId) (w : β → Int) (b0 : β) (v : VId)
    (hv : f b0 = v)
    (huniq : ∀ b ∈ L, f b = v → b = b0) :
    coeffT (L.map (fun b => (f b, w b))) v = (L.count b0 : Int) * w b0 := by
  induction L with
  | nil => simp [coeffT]
  | cons b L ih =>
    rw [List.map_cons, coeffT_cons,
      ih (fun b2 hb2 => huniq b2 (List.mem_cons_of_mem b hb2)), List.count_cons]
    by_cases hb : b = b0
    · subst hb
      rw [if_pos hv, if_pos (by simp)]
      push_cast
      ring
    · have hfv : ¬(f b = v) := fun hf => hb (huniq b (List.mem_cons_self _ _) hf)
      rw [if_neg hfv, if_neg (by simp [hb])]
      push_cast
      ring

/-- The (match, slot) enumeration underlying the preference terms: slot
outer loop, match inner loop. -/
def prefPairs (inp : Input) (gs : List Group) : List (Match × Slot) :=
  inp.slots.flatMap (fun s => (allMatches gs).map (fun m => (m, s)))

theorem objPrefTerms_eq (inp : Input) (gs : List Group) :
    objPrefTerms inp gs =
      (prefPairs inp gs).map
        (fun q => (VId.nm (assignVarName q.1 q.2), matchSlotPref q.1 q.2)) := by
  unfold objPrefTerms prefPairs
  rw [List.map_flatMap]
  congr 1
  funext s
  rw [List.map_map]
  unfold allMatches
  rw [List.map_flatMap]
  rfl

theorem count_pair_map_ne (L : List Match) (s2 s : Slot) (m : Match) (h : s2 ≠ s) :
    (L.map (fun m2 => (m2, s2))).count (m, s) = 0 := by
  rw [List.count_eq_zero]
  intro hmem
  obtain ⟨m2, _, heq⟩ := List.mem_map.mp hmem
  exact h (congrArg Prod.snd heq)

theorem count_pair_map_eq (L : List Match) (s : Slot) (m : Match) :
    (L.map (fun m2 => (m2, s))).count (m, s) = L.count m := by
  induction L with
  | nil => rfl
  | cons m2 L ih =>
    rw [List.map_cons, List.count_cons, List.count_cons, ih]
    by_cases hm : m2 = m
    · simp [hm]
    · simp [hm]

theorem sum_count_pairs (ss : List Slot) (L : List Match) (m : Match) (s : Slot) :
    (ss.map (fun s2 => (L.map (fun m2 => (m2, s2))).count (m, s))).sum =
      ss.count s * L.count m := by
  induction ss with
  | nil => simp
  | cons s2 ss ih =>
    rw [List.map_cons, List.sum_cons, ih, List.count_cons]
    by_cases hs : s2 = s
    · subst hs
      rw [count_pair_map_eq]
      simp
      ring
    · rw [count_pair_map_ne _ _ _ _ hs]
      simp [hs]

theorem count_prefPairs (inp : Input) (gs : List Group) (m : Match) (s : Slot)
    (hcm : (allMatches gs).count m = 1) (hcs : inp.slots.count s = 1) :
    (prefPairs inp gs).count (m, s) = 1 := by
  unfold prefPairs
  rw [List.count_flatMap]
  have h2 := sum_count_pairs inp.slots (allMatches gs) m s
  rw [hcm, hcs] at h2
  simpa [Function.comp] using h2

theorem mem_prefPairs (inp : Input) (gs : List Group) (q : Match × Slot) :
    q ∈ prefPairs inp gs ↔ q.1 ∈ allMatches gs ∧ q.2 ∈ inp.slots := by
  unfold prefPairs
  rw [List.mem_flatMap]
  constructor
  · rintro ⟨s2, hs2, hmem⟩
    obtain ⟨m2, hm2, heq⟩ := List.mem_map.mp hmem
    cases heq
    exact ⟨hm2, hs2⟩
  · rintro ⟨hm, hs⟩
    exact ⟨q.2, hs, List.mem_map.mpr ⟨q.1, hm, rfl⟩⟩

/-! ### Preference scores -/

/-- The preference score the data model assigns a player for a time block:
his entry for that block, or 0 when he declared none. -/
def prefScore (p : Player) (tb : String) : Int :=
  match p.preferences.find? (fun pr => pr.time_block_id == tb) with
  | some pr => pr.preference
  | none => 0

theorem prefFirst_eq_prefScore (p : Player) (tb : String) :
    prefFirst p.preferences tb = prefScore p tb := rfl

theorem prefSumAll_cons (pr : Preference) (rest : List Preference) (tb : String) :
    prefSumAll (pr :: rest) tb =
      (if pr.time_block_id == tb then pr.preference else 0) + prefSumAll rest tb := by
  unfold prefSumAll
  rw [List.filter_cons]
  by_cases hb : (pr.time_block_id == tb)
  · rw [if_pos hb, if_pos hb]
    simp
  · rw [if_neg hb, if_neg hb]
    simp

theorem prefFirst_cons (pr : Preference) (rest : List Preference) (tb : String) :
    prefFirst (pr :: rest) tb =
      if pr.time_block_id == tb then pr.preference else prefFirst rest tb := by
  unfold prefFirst
  rw [List.find?_cons]
  by_cases hb : (pr.time_block_id == tb)
  · rw [if_pos hb]
    cases hb2 : (pr.time_block_id == tb) <;> simp_all
  · rw [if_neg hb]
    cases hb2 : (pr.time_block_id == tb) <;> simp_all

theorem prefSumAll_eq_zero (prefs : List Preference) (tb : String)
    (h : ∀ pr ∈ prefs, pr.time_block_id ≠ tb) : prefSumAll prefs tb = 0 := by
  induction prefs with
  | nil => rfl
  | cons pr rest ih =>
    rw [prefSumAll_cons, if_neg (by simpa using h pr (List.mem_cons_self _ _)),
      ih (fun pr2 hpr2 => h pr2 (List.mem_cons_of_mem pr hpr2))]
    simp

/-- With at most one preference row per time block, the break-free sum the
source computes for player1 equals the data-model preference score. -/
theorem prefSumAll_eq_prefFirst (prefs : List Preference) (tb : String)
    (hnd : (prefs.map Preference.time_block_id).Nodup) :
    prefSumAll prefs tb = prefFirst prefs tb := by
  induction prefs with
  | nil => rfl
  | cons pr rest ih =>
    rw [List.map_cons, List.nodup_cons] at hnd
    rw [prefSumAll_cons, prefFirst_cons]
    by_cases hb : (pr.time_block_id == tb)
    · rw [if_pos hb, if_pos hb]
      have hz : prefSumAll rest tb = 0 := by
        refine prefSumAll_eq_zero rest tb ?_
        intro pr2 hpr2 heq
        have htb : pr.time_block_id = tb := by simpa using hb
        exact hnd.1 (by rw [htb, ← heq]; exact List.mem_map.mpr ⟨pr2, hpr2, rfl⟩)
      rw [hz]
      ring
    · rw [if_neg hb, if_neg hb, ih hnd.2]
      ring

/-! ### C4 -/

/-- C4: the preference-reward term gives the (match, slot) variable the
coefficient score(player1, slot's block) + score(player2, slot's block),
each score 0 when the player declared no preference for the block.  The
hypotheses say the (match, slot) pair occurs once and its variable name is
not shared, and that player1 has at most one preference row per block (the
source sums every matching row for player1 and takes the first for
player2). -/
theorem c4_preference_coefficient (inp : Input) (gs : List Group) (m : Match) (s : Slot)
    (hcm : (allMatches gs).count m = 1) (hcs : inp.slots.count s = 1)
    (hinj : ∀ m2 ∈ allMatches gs, ∀ s2 ∈ inp.slots,
      assignVarName m2 s2 = assignVarName m s → m2 = m ∧ s2 = s)
    (hp1 : (m.player1.preferences.map Preference.time_block_id).Nodup) :
    coeffT (objPrefTerms inp gs) (VId.nm (assignVarName m s)) =
      prefScore m.player1 s.time_block_id + prefScore m.player2 s.time_block_id := by
  rw [objPrefTerms_eq]
  rw [coeffT_map_count (prefPairs inp gs)
    (fun q => VId.nm (assignVarName q.1 q.2)) (fun q => matchSlotPref q.1 q.2)
    (m, s) (VId.nm (assignVarName m s)) rfl ?_]
  · rw [count_prefPairs inp gs m s hcm hcs]
    have : matchSlotPref m s =
        prefScore m.player1 s.time_block_id + prefScore m.player2 s.time_block_id := by
      unfold matchSlotPref
      rw [prefSumAll_eq_prefFirst _ _ hp1, prefFirst_eq_prefScore]
      rfl
    rw [this]
    push_cast
    ring
  · intro q hq hf
    obtain ⟨hqm, hqs⟩ := (mem_prefPairs inp gs q).mp hq
    have hname : assignVarName q.1 q.2 = assignVarName m s := by
      simpa using hf
    obtain ⟨h1, h2⟩ := hinj q.1 hqm q.2 hqs hname
    exact Prod.ext h1 h2

def c4p1 : Player :=
  { player_id := "P1", pname := "P1", division := "D", ranking := 1, seed := false,
    preferences := [{ player_id := "P1", time_block_id := "A", preference := 2 },
                    { player_id := "P1", time_block_id := "B", preference := -1 }] }

def c4p2 : Player :=
  { player_id := "P2", pname := "P2", division := "D", ranking := 2, seed := false,
    preferences := [{ player_id := "P2", time_block_id := "A", preference := 1 }] }

def c4Input : Input :=
  { options := { group_size := 4, dummy_penalty := 1, back_to_back_penalty := 1 }
    players_by_division := [("D", [c4p1, c4p2])]
    slots := [slA1, slB1, slC1]
    division_availability := [("D", ["A", "B", "C"])]
    time_block_ranking := [("A", 1), ("B", 2), ("C", 3)]
    slots_by_time_block := [("A", [slA1]), ("B", [slB1]), ("C", [slC1])]
    time_block_demands_by_player := [] }

def c4Groups : List Group := playerGroups id c4Input

def c4Match : Match := mkMatch "D-1" "D" 1 { c4p1 with seed := true } c4p2

theorem c4_witness :
    (allMatches c4Groups).count c4Match = 1 ∧ c4Input.slots.count slA1 = 1 ∧
      (∀ m2 ∈ allMatches c4Groups, ∀ s2 ∈ c4Input.slots,
        assignVarName m2 s2 = assignVarName c4Match slA1 → m2 = c4Match ∧ s2 = slA1) ∧
      (c4Match.player1.preferences.map Preference.time_block_id).Nodup ∧
      coeffT (objPrefTerms c4Input c4Groups) (VId.nm (assignVarName c4Match slA1)) =
        prefScore c4Match.player1 slA1.time_block_id +
          prefScore c4Match.player2 slA1.time_block_id :=
  ⟨by decide, by decide, by decide, by decide,
    c4_preference_coefficient c4Input c4Groups c4Match slA1
      (by decide) (by decide) (by decide) (by decide)⟩

theorem c10_witness :
    1 ≤ c10Input.options.group_size ∧
      ("D", [mkP "P1" 1, mkP "P2" 2, mkP "P3" 3, mkP "P4" 4]) ∈ c10Input.players_by_division ∧
      ([mkP "P1" 1, mkP "P2" 2, mkP "P3" 3, mkP "P4" 4] : List Player) ≠ [] ∧
      c10Input.division_availability.lookup "D" = none ∧
      ∃ d2, constraints c10Input (playerGroups id c10Input) = .error (.availability d2) ∧
        c10Input.division_availability.lookup d2 = none :=
  ⟨by decide, by simp [c10Input], by simp, rfl,
    c10_missing_division_availability_raises id c10Input "D"
      [mkP "P1" 1, mkP "P2" 2, mkP "P3" 3, mkP "P4" 4]
      (by decide) (by simp [c10Input]) (by simp) rfl⟩

/-! ### C3: the back-to-back penalty part of the objective -/

/-- A slot's time-block ranking with default 0 (used only where the lookup is
known to succeed). -/
def rankOf (inp : Input) (s : Slot) : Int :=
  (inp.time_block_ranking.lookup s.time_block_id).getD 0

/-- All position-ordered pairs of a slot list (i < j positions). -/
def slotPairs : List Slot → List (Slot × Slot)
  | [] => []
  | s :: rest => rest.map (fun s2 => (s, s2)) ++ slotPairs rest

/-- The back-to-back value one match contributes, as the source computes it:
position-ordered slot pairs, second ranking minus first ranking equal to 1. -/
def matchPairSum (inp : Input) (w : Int) (m : Match) (σ : VId → Int) : Int :=
  ((slotPairs inp.slots).map (fun q =>
    if rankOf inp q.2 - rankOf inp q.1 = 1 then
      -(w * (σ (VId.nm (assignVarName m q.1)) + σ (VId.nm (assignVarName m q.2)) - 1))
    else 0)).sum

/-- Total back-to-back value over groups, players and their matches, with the
source's ordered-pair condition. -/
def specB2BOrdered (inp : Input) (gs : List Group) (σ : VId → Int) : Int :=
  (gs.map (fun g => (g.players.map (fun p =>
    (((g.matches_by_player.lookup p.player_id).getD []).map
      (fun m => matchPairSum inp inp.options.back_to_back_penalty m σ)).sum)).sum)).sum

/-- The claim's wording for one match: every unordered pair of slots whose
rankings differ by exactly 1 contributes -(w * (var_1 + var_2 - 1)). -/
def matchPairSumU (inp : Input) (w : Int) (m : Match) (σ : VId → Int) : Int :=
  ((slotPairs inp.slots).map (fun q =>
    if rankOf inp q.2 - rankOf inp q.1 = 1 ∨ rankOf inp q.1 - rankOf inp q.2 = 1 then
      -(w * (σ (VId.nm (assignVarName m q.1)) + σ (VId.nm (assignVarName m q.2)) - 1))
    else 0)).sum

/-- Total back-to-back value with the claim's unordered-pair condition. -/
def specB2BUnordered (inp : Input) (gs : List Group) (σ : VId → Int) : Int :=
  (gs.map (fun g => (g.players.map (fun p =>
    (((g.matches_by_player.lookup p.player_id).getD []).map
      (fun m => matchPairSumU inp inp.options.back_to_back_penalty m σ)).sum)).sum)).sum

/-- The C3 claim as stated: the back-to-back objective part equals the
unordered-pair penalty sum. -/
def C3Statement : Prop :=
  ∀ (inp : Input) (gs : List Group) (e : LinExpr) (σ : VId → Int),
    b2bPart inp gs LinExpr.zero = .ok e →
    e.eval σ = specB2BUnordered inp gs σ

theorem dgetE_ok {β : Type} {m : List (String × β)} {k : String} {er : KeyErr} {v : β}
    (h : dgetE m k er = .ok v) : m.lookup k = some v := by
  unfold dgetE at h
  cases hl : m.lookup k with
  | none => rw [hl] at h; cases h
  | some w => rw [hl] at h; cases h; rfl

theorem eval_add (e : LinExpr) (ts : List (VId × Int)) (c : Int) (σ : VId → Int) :
    (e.add ts c).eval σ = e.eval σ + evalTerms σ ts + c := by
  unfold LinExpr.add LinExpr.eval evalTerms
  simp only [List.map_append, List.sum_append]
  ring

theorem b2bInner_eval (inp : Input) (w : Int) (m : Match) (s1 : Slot) (r1 : Int)
    (σ : VId → Int) :
    ∀ (rest : List Slot) (acc e : LinExpr),
      b2bInner inp w m s1 r1 rest acc = .ok e →
      e.eval σ = acc.eval σ +
        (rest.map (fun s2 =>
          if rankOf inp s2 - r1 = 1 then
            -(w * (σ (VId.nm (assignVarName m s1)) + σ (VId.nm (assignVarName m s2)) - 1))
          else 0)).sum := by
  intro rest
  induction rest with
  | nil =>
    intro acc e h
    cases h
    simp
  | cons s2 rest ih =>
    intro acc e h
    have h2 : (match dgetE inp.time_block_ranking s2.time_block_id
        (KeyErr.ranking s2.time_block_id) with
      | .error er => (.error er : Except KeyErr LinExpr)
      | .ok r2 =>
          if r2 - r1 = 1 then
            b2bInner inp w m s1 r1 rest
              (acc.add [(VId.nm (assignVarName m s1), -w),
                (VId.nm (assignVarName m s2), -w)] w)
          else
            b2bInner inp w m s1 r1 rest acc) = .ok e := h
    cases hd : dgetE inp.time_block_ranking s2.time_block_id
        (KeyErr.ranking s2.time_block_id) with
    | error er =>
      rw [hd] at h2
      have h3 : (Except.error er : Except KeyErr LinExpr) = Except.ok e := h2
      cases h3
    | ok r2 =>
      rw [hd] at h2
      have h3 : (if r2 - r1 = 1 then
          b2bInner inp w m s1 r1 rest
            (acc.add [(VId.nm (assignVarName m s1), -w),
              (VId.nm (assignVarName m s2), -w)] w)
        else b2bInner inp w m s1 r1 rest acc) = Except.ok e := h2
      have hrank : rankOf inp s2 = r2 := by
        unfold rankOf
        rw [dgetE_ok hd]
        rfl
      by_cases hc : r2 - r1 = 1
      · rw [if_pos hc] at h3
        have he := ih _ _ h3
        rw [eval_add] at he
        simp only [List.map_cons, List.sum_cons, hrank, if_pos hc]
        unfold evalTerms at he
        simp only [List.map_cons, List.map_nil, List.sum_cons, List.sum_nil] at he
        rw [he]
        ring
      · rw [if_neg hc] at h3
        have he := ih _ _ h3
        simp only [List.map_cons, List.sum_cons, hrank, if_neg hc]
        rw [he]
        ring

theorem b2bOuter_eval (inp : Input) (w : Int) (m : Match) (σ : VId → Int) :
    ∀ (ss : List Slot) (acc e : LinExpr),
      b2bOuter inp w m ss acc = .ok e →
      e.eval σ = acc.eval σ +
        ((slotPairs ss).map (fun q =>
          if rankOf inp q.2 - rankOf inp q.1 = 1 then
            -(w * (σ (VId.nm (assignVarName m q.1)) + σ (VId.nm (assignVarName m q.2)) - 1))
          else 0)).sum := by
  intro ss
  induction ss with
  | nil =>
    intro acc e h
    cases h
    simp [slotPairs]
  | cons s1 rest ih =>
    intro acc e h
    cases rest with
    | nil =>
      cases h
      simp [slotPairs]
    | cons s2 rest2 =>
      have h2 : (match dgetE inp.time_block_ranking s1.time_block_id
          (KeyErr.ranking s1.time_block_id) with
        | .error er => (.error er : Except KeyErr LinExpr)
        | .ok r1 =>
            match b2bInner inp w m s1 r1 (s2 :: rest2) acc with
            | .error er => .error er
            | .ok acc2 => b2bOuter inp w m (s2 :: rest2) acc2) = .ok e := h
      cases hd : dgetE inp.time_block_ranking s1.time_block_id
          (KeyErr.ranking s1.time_block_id) with
      | error er =>
        rw [hd] at h2
        have h3 : (Except.error er : Except KeyErr LinExpr) = Except.ok e := h2
        cases h3
      | ok r1 =>
        rw [hd] at h2
        have h3 : (match b2bInner inp w m s1 r1 (s2 :: rest2) acc with
          | .error er => (.error er : Except KeyErr LinExpr)
          | .ok acc2 => b2bOuter inp w m (s2 :: rest2) acc2) = Except.ok e := h2
        cases hi : b2bInner inp w m s1 r1 (s2 :: rest2) acc with
        | error er =>
          rw [hi] at h3
          have h4 : (Except.error er : Except KeyErr LinExpr) = Except.ok e := h3
          cases h4
        | ok acc2 =>
          rw [hi] at h3
          have h4 : b2bOuter inp w m (s2 :: rest2) acc2 = Except.ok e := h3
          have hrank : rankOf inp s1 = r1 := by
            unfold rankOf
            rw [dgetE_ok hd]
            rfl
          have hin := b2bInner_eval inp w m s1 r1 σ (s2 :: rest2) acc acc2 hi
          have hout := ih acc2 e h4
          rw [slotPairs, List.map_append, List.sum_append, List.map_map]
          have hfun : ((fun q : Slot × Slot =>
              if rankOf inp q.2 - rankOf inp q.1 = 1 then
                -(w * (σ (VId.nm (assignVarName m q.1)) +
                  σ (VId.nm (assignVarName m q.2)) - 1))
              else 0) ∘ (fun s2 : Slot => (s1, s2))) =
              (fun s2 : Slot =>
                if rankOf inp s2 - r1 = 1 then
                  -(w * (σ (VId.nm (assignVarName m s1)) +
                    σ (VId.nm (assignVarName m s2)) - 1))
                else 0) := by
            funext s3
            simp [Function.comp_def, hrank]
          rw [hfun, hout, hin]
          ring

theorem b2bMatchesFold_eval (inp : Input) (w : Int) (σ : VId → Int) :
    ∀ (ms : List Match) (acc e : LinExpr),
      b2bMatchesFold inp w ms acc = .ok e →
      e.eval σ = acc.eval σ + (ms.map (fun m => matchPairSum inp w m σ)).sum := by
  intro ms
  induction ms with
  | nil =>
    intro acc e h
    cases h
    simp
  | cons m ms ih =>
    intro acc e h
    have h2 : (match b2bOuter inp w m inp.slots acc with
      | .error er => (.error er : Except KeyErr LinExpr)
      | .ok acc2 => b2bMatchesFold inp w ms acc2) = .ok e := h
    cases ho : b2bOuter inp w m inp.slots acc with
    | error er =>
      rw [ho] at h2
      have h3 : (Except.error er : Except KeyErr LinExpr) = Except.ok e := h2
      cases h3
    | ok acc2 =>
      rw [ho] at h2
      have h3 : b2bMatchesFold inp w ms acc2 = Except.ok e := h2
      have ha : LinExpr.eval σ acc2 = LinExpr.eval σ acc + matchPairSum inp w m σ :=
        b2bOuter_eval inp w m σ inp.slots acc acc2 ho
      have hb := ih acc2 e h3
      simp only [List.map_cons, List.sum_cons]
      rw [hb, ha]
      ring

theorem b2bPlayersFold_eval (inp : Input) (g : Group) (w : Int) (σ : VId → Int) :
    ∀ (ps : List Player) (acc e : LinExpr),
      b2bPlayersFold inp g w ps acc = .ok e →
      e.eval σ = acc.eval σ + (ps.map (fun p =>
        (((g.matches_by_player.lookup p.player_id).getD []).map
          (fun m => matchPairSum inp w m σ)).sum)).sum := by
  intro ps
  induction ps with
  | nil =>
    intro acc e h
    cases h
    simp
  | cons p ps ih =>
    intro acc e h
    have h2 : (match dgetE g.matches_by_player p.player_id (KeyErr.mbp p.player_id) with
      | .error er => (.error er : Except KeyErr LinExpr)
      | .ok ms =>
          match b2bMatchesFold inp w ms acc with
          | .error er => .error er
          | .ok acc2 => b2bPlayersFold inp g w ps acc2) = .ok e := h
    cases hd : dgetE g.matches_by_player p.player_id (KeyErr.mbp p.player_id) with
    | error er =>
      rw [hd] at h2
      have h3 : (Except.error er : Except KeyErr LinExpr) = Except.ok e := h2
      cases h3
    | ok ms =>
      rw [hd] at h2
      have h3 : (match b2bMatchesFold inp w ms acc with
        | .error er => (.error er : Except KeyErr LinExpr)
        | .ok acc2 => b2bPlayersFold inp g w ps acc2) = Except.ok e := h2
      cases hm : b2bMatchesFold inp w ms acc with
      | error er =>
        rw [hm] at h3
        have h4 : (Except.error er : Except KeyErr LinExpr) = Except.ok e := h3
        cases h4
      | ok acc2 =>
        rw [hm] at h3
        have h4 : b2bPlayersFold inp g w ps acc2 = Except.ok e := h3
        have hms : (g.matches_by_player.lookup p.player_id).getD [] = ms := by
          rw [dgetE_ok hd]
          rfl
        have ha := b2bMatchesFold_eval inp w σ ms acc acc2 hm
        have hb := ih acc2 e h4
        simp only [List.map_cons, List.sum_cons, hms]
        rw [hb, ha]
        ring

theorem b2bGroupsFold_eval (inp : Input) (w : Int) (σ : VId → Int) :
    ∀ (gs : List Group) (acc e : LinExpr),
      b2bGroupsFold inp w gs acc = .ok e →
      e.eval σ = acc.eval σ + (gs.map (fun g => (g.players.map (fun p =>
        (((g.matches_by_player.lookup p.player_id).getD []).map
          (fun m => matchPairSum inp w m σ)).sum)).sum)).sum := by
  intro gs
  induction gs with
  | nil =>
    intro acc e h
    cases h
    simp
  | cons g gs ih =>
    intro acc e h
    have h2 : (match b2bPlayersFold inp g w g.players acc with
      | .error er => (.error er : Except KeyErr LinExpr)
      | .ok acc2 => b2bGroupsFold inp w gs acc2) = .ok e := h
    cases hp : b2bPlayersFold inp g w g.players acc with
    | error er =>
      rw [hp] at h2
      have h3 : (Except.error er : Except KeyErr LinExpr) = Except.ok e := h2
      cases h3
    | ok acc2 =>
      rw [hp] at h2
      have h3 : b2bGroupsFold inp w gs acc2 = Except.ok e := h2
      have ha := b2bPlayersFold_eval inp g w σ g.players acc acc2 hp
      have hb := ih acc2 e h3
      simp only [List.map_cons, List.sum_cons]
      rw [hb, ha]
      ring

/-- C3 counterexample: with the slot list ordered by descending ranking the
source generates no penalty term at all (it only pairs slots at positions
i < j with ranking difference +1), while the claim's unordered-pair sum is
nonzero. -/
theorem c3_counterexample : ¬C3Statement := by
  intro h
  have h2 : LinExpr.eval (fun _ => 1) LinExpr.zero =
      specB2BUnordered cex3Input cex3Groups (fun _ => 1) :=
    h cex3Input cex3Groups LinExpr.zero (fun _ => 1) (by rfl)
  revert h2
  decide

/-- C3 (amended): the back-to-back part adds, onto the accumulated objective,
-(w * (var_1 + var_2 - 1)) for every POSITION-ORDERED pair of slots (i < j in
the slot list) whose ranking difference (second minus first) is exactly +1,
per player and per match of that player; and for 0/1 variables each such pair
contributes -w when both variables are 1, 0 when exactly one is, and +w when
neither is (not 0 as claimed). -/
theorem c3_back_to_back_objective (inp : Input) (gs : List Group) (acc e : LinExpr)
    (σ : VId → Int) (hok : b2bPart inp gs acc = .ok e) :
    e.eval σ = acc.eval σ + specB2BOrdered inp gs σ ∧
      ∀ w a b : Int, a = 0 ∨ a = 1 → b = 0 ∨ b = 1 →
        -(w * (a + b - 1)) = if a = 1 ∧ b = 1 then -w else if a + b = 1 then 0 else w := by
  constructor
  · have h := b2bGroupsFold_eval inp inp.options.back_to_back_penalty σ gs acc e hok
    rw [h]
    rfl
  · rintro w a b (rfl | rfl) (rfl | rfl) <;> norm_num

/-- The back-to-back expression the source builds on witInput. -/
def c3WitE : LinExpr := ((b2bPart witInput witGroups LinExpr.zero).toOption).getD LinExpr.zero

theorem c3_witness :
    b2bPart witInput witGroups LinExpr.zero = .ok c3WitE ∧
      (c3WitE.eval witVal = LinExpr.zero.eval witVal +
          specB2BOrdered witInput witGroups witVal ∧
        ∀ w a b : Int, a = 0 ∨ a = 1 → b = 0 ∨ b = 1 →
          -(w * (a + b - 1)) = if a = 1 ∧ b = 1 then -w else if a + b = 1 then 0 else w) :=
  ⟨by rfl, c3_back_to_back_objective witInput witGroups LinExpr.zero c3WitE witVal (by rfl)⟩

/-! ### C2: the anti-triple back-to-back machinery -/

/-- The player has at least one of their matches booked in some slot of the
given time block under the valuation. -/
def bookedIn (σ : VId → Int) (inp : Input) (g : Group) (p : Player) (tb : String) : Prop :=
  ∃ m ∈ (g.matches_by_player.lookup p.player_id).getD [],
    ∃ s ∈ (inp.slots_by_time_block.lookup tb).getD [],
      σ (VId.nm (assignVarName m s)) = 1

instance (σ : VId → Int) (inp : Input) (g : Group) (p : Player) (tb : String) :
    Decidable (bookedIn σ inp g p tb) := by
  unfold bookedIn
  infer_instance

/-- The C2 claim as stated: for ANY three time blocks with consecutive
rankings, no feasible binary solution books a player in all three. -/
def C2Statement : Prop :=
  ∀ (sh : List Player → List Player) (inp : Input) (cs : List Constr) (σ : VId → Int),
    constraints inp (playerGroups sh inp) = .ok cs →
    Binary σ → (∀ c ∈ cs, c.Sat σ) →
    ∀ (tb1 tb2 tb3 : String) (r1 r2 r3 : Int),
      inp.time_block_ranking.lookup tb1 = some r1 →
      inp.time_block_ranking.lookup tb2 = some r2 →
      inp.time_block_ranking.lookup tb3 = some r3 →
      r2 - r1 = 1 → r3 - r2 = 1 →
      ∀ g ∈ playerGroups sh inp, ∀ p ∈ g.players,
        ¬(bookedIn σ inp g p tb1 ∧ bookedIn σ inp g p tb2 ∧ bookedIn σ inp g p tb3)

/-- The constraint list built on cex2Input. -/
def cex2Cs : List Constr := ((constraints cex2Input cex2Groups).toOption).getD []

/-- The single group of cex2Input. -/
def cex2Group : Group :=
  match cex2Groups with
  | g :: _ => g
  | [] => { group_id := "", division := "", players := [], gmatches := [],
            matches_by_player := [] }

theorem cex2Val_binary : Binary cex2Val := by
  intro v
  cases v with
  | nm s =>
    by_cases h : s ∈ cex2OnNames
    · exact Or.inr (by simp [cex2Val, h])
    · exact Or.inl (by simp [cex2Val, h])
  | aux k => exact Or.inl rfl

/-- C2 counterexample: blocks A, B, C have consecutive rankings 1, 2, 3, but
the slot sheet lists them in the order A, C, B, so no position-consecutive
key triple passes the ranking guard, no indicator machinery is generated,
and a feasible binary solution books player P1 in all of A, B and C. -/
theorem c2_counterexample : ¬C2Statement := by
  intro h
  have hb := h id cex2Input cex2Cs cex2Val rfl cex2Val_binary (by decide)
    "A" "B" "C" 1 2 3 rfl rfl rfl rfl rfl cex2Group (by decide)
    { mkP "P1" 1 with seed := true } (by decide)
  exact hb ⟨by decide, by decide, by decide⟩

theorem dgetE_some {β : Type} {m : List (String × β)} {k : String} {v : β} (er : KeyErr)
    (h : m.lookup k = some v) : dgetE m k er = .ok v := by
  unfold dgetE
  rw [h]

theorem phase6Fold_item_step (inp : Input) :
    ∀ (items : List (Group × Player × String × String × String)) (ctr : Nat)
      (r : Nat × List Constr), phase6Fold inp items ctr = .ok r →
      ∀ x ∈ items, ∃ ctr2 s,
        tripleStep inp x.1 x.2.1 x.2.2.1 x.2.2.2.1 x.2.2.2.2 ctr2 = .ok s ∧
          ∀ c ∈ s.2, c ∈ r.2 := by
  intro items
  induction items with
  | nil =>
    intro ctr r h x hx
    cases hx
  | cons y ys ih =>
    intro ctr r h x hx
    rw [phase6Fold] at h
    cases hts : tripleStep inp y.1 y.2.1 y.2.2.1 y.2.2.2.1 y.2.2.2.2 ctr with
    | error e => rw [hts] at h; cases h
    | ok s =>
      rw [hts] at h
      have h2 : (match phase6Fold inp ys s.1 with
        | .error e => (Except.error e : Except KeyErr (Nat × List Constr))
        | .ok r => Except.ok (r.1, s.2 ++ r.2)) = Except.ok r := h
      cases hfold : phase6Fold inp ys s.1 with
      | error e => rw [hfold] at h2; cases h2
      | ok r2 =>
        rw [hfold] at h2
        cases h2
        rcases List.mem_cons.mp hx with rfl | hx2
        · exact ⟨ctr, s, hts, fun c hc => List.mem_append_left _ hc⟩
        · obtain ⟨ctr2, s2, hts2, hsub⟩ := ih s.1 r2 hfold x hx2
          exact ⟨ctr2, s2, hts2, fun c hc => List.mem_append_right _ (hsub c hc)⟩

theorem tripleStep_gen (inp : Input) (g : Group) (p : Player) (t1 t2 t3 : String)
    (ctr : Nat) (s : Nat × List Constr) (r1 r2 r3 : Int)
    (hr1 : inp.time_block_ranking.lookup t1 = some r1)
    (hr2 : inp.time_block_ranking.lookup t2 = some r2)
    (hr3 : inp.time_block_ranking.lookup t3 = some r3)
    (hguard : ¬((r2 - r1 ≠ 1) ∨ ((r3 - r2 ≠ 1) ∧ (r3 - r1 ≠ 2))))
    (hok : tripleStep inp g p t1 t2 t3 ctr = .ok s) :
    ∃ ms, g.matches_by_player.lookup p.player_id = some ms ∧
      s = (ctr + 3, tripleGen inp ms t1 t2 t3 ctr) := by
  unfold tripleStep at hok
  rw [dgetE_some (KeyErr.ranking t1) hr1, dgetE_some (KeyErr.ranking t2) hr2,
    dgetE_some (KeyErr.ranking t3) hr3] at hok
  have hok2 : (if (r2 - r1 ≠ 1) ∨ ((r3 - r2 ≠ 1) ∧ (r3 - r1 ≠ 2)) then
        Except.ok (ctr, ([] : List Constr))
      else
        match dgetE g.matches_by_player p.player_id (.mbp p.player_id) with
        | .error e => .error e
        | .ok ms => Except.ok (ctr + 3, tripleGen inp ms t1 t2 t3 ctr)) =
      Except.ok s := hok
  rw [if_neg hguard] at hok2
  cases hd4 : dgetE g.matches_by_player p.player_id (KeyErr.mbp p.player_id) with
  | error e => rw [hd4] at hok2; cases hok2
  | ok ms =>
    rw [hd4] at hok2
    cases hok2
    exact ⟨ms, dgetE_ok hd4, rfl⟩

theorem evalTerms_cons (σ : VId → Int) (v : VId) (k : Int) (ts : List (VId × Int)) :
    evalTerms σ ((v, k) :: ts) = k * σ v + evalTerms σ ts := by
  simp [evalTerms]

theorem evalTerms_neg (σ : VId → Int) (ts : List (VId × Int)) :
    evalTerms σ (ts.map (fun t => (t.1, -t.2))) = -evalTerms σ ts := by
  induction ts with
  | nil => simp [evalTerms]
  | cons t ts ih =>
    simp only [List.map_cons]
    rw [evalTerms_cons]
    have he : evalTerms σ (t :: ts) = t.2 * σ t.1 + evalTerms σ ts := by
      simp [evalTerms]
    rw [ih, he]
    ring

/-- An indicator that satisfies 999 * ind - sum >= 0 with a 0/1 value and a
sum of at least 1 must be 1. -/
theorem indicator_one (σ : VId → Int) (hbin : Binary σ) (a : Nat) (ts : List (VId × Int))
    (hsat : Constr.Sat σ
      { e := { terms := (VId.aux a, 999) :: ts.map (fun t => (t.1, -t.2)), const := 0 }
        rel := .ge, rhs := 0, cname := "" })
    (hge : 1 ≤ evalTerms σ ts) : σ (VId.aux a) = 1 := by
  have h : evalTerms σ ((VId.aux a, 999) :: ts.map (fun t => (t.1, -t.2))) + 0 ≥ 0 := hsat
  rw [evalTerms_cons, evalTerms_neg] at h
  rcases hbin (VId.aux a) with h0 | h1
  · rw [h0] at h
    omega
  · exact h1

theorem triple_sat_bound (σ : VId → Int) (a : Nat) (nm2 : String)
    (hsat : Constr.Sat σ
      { e := { terms := [(VId.aux a, 1), (VId.aux (a + 1), 1), (VId.aux (a + 2), 1)]
               const := 0 }
        rel := .le, rhs := 2, cname := nm2 }) :
    σ (VId.aux a) + σ (VId.aux (a + 1)) + σ (VId.aux (a + 2)) ≤ 2 := by
  have h : evalTerms σ
      [(VId.aux a, 1), (VId.aux (a + 1), 1), (VId.aux (a + 2), 1)] + 0 ≤ 2 := hsat
  simp [evalTerms] at h
  omega

/-- A booked (match, slot) pair of the block makes the block sum at least 1
under a binary valuation. -/
theorem blockSum_ge_one (σ : VId → Int) (hbin : Binary σ) (bs : List Slot)
    (ms : List Match) (m : Match) (hm : m ∈ ms) (s : Slot) (hs : s ∈ bs)
    (hv : σ (VId.nm (assignVarName m s)) = 1) :
    1 ≤ evalTerms σ (blockSumTerms bs ms) := by
  unfold evalTerms
  have hmem : (1 : Int) ∈ (blockSumTerms bs ms).map (fun t => t.2 * σ t.1) := by
    refine List.mem_map.mpr ⟨(VId.nm (assignVarName m s), 1), ?_, by simp [hv]⟩
    unfold blockSumTerms
    exact List.mem_flatMap.mpr ⟨s, hs, List.mem_map.mpr ⟨m, hm, rfl⟩⟩
  refine List.single_le_sum ?_ 1 hmem
  intro x hx
  obtain ⟨t, ht, rfl⟩ := List.mem_map.mp hx
  unfold blockSumTerms at ht
  obtain ⟨s2, hs2, hms2⟩ := List.mem_flatMap.mp ht
  obtain ⟨m2, hm2, heq⟩ := List.mem_map.mp hms2
  cases heq
  rcases hbin (VId.nm (assignVarName m2 s2)) with h0 | h0 <;> simp [h0]

/-- C2 (amended): the anti-triple machinery only covers triples of
CONSECUTIVE POSITIONS in the slots_by_time_block key order; for such a
positioned triple whose rankings are consecutive, no feasible binary
solution books a player of any group in all three blocks. -/
theorem c2_anti_triple (sh : List Player → List Player) (inp : Input)
    (cs : List Constr) (σ : VId → Int)
    (hok : constraints inp (playerGroups sh inp) = .ok cs)
    (hbin : Binary σ) (hsat : ∀ c ∈ cs, c.Sat σ)
    (g : Group) (hg : g ∈ playerGroups sh inp) (p : Player) (hp : p ∈ g.players)
    (i : Nat) (tb1 tb2 tb3 : String)
    (ht1 : (inp.slots_by_time_block.map Prod.fst).getD i "" = tb1)
    (ht2 : (inp.slots_by_time_block.map Prod.fst).getD (i + 1) "" = tb2)
    (ht3 : (inp.slots_by_time_block.map Prod.fst).getD (i + 2) "" = tb3)
    (hi : i + 2 < (inp.slots_by_time_block.map Prod.fst).length)
    (r1 r2 r3 : Int)
    (hr1 : inp.time_block_ranking.lookup tb1 = some r1)
    (hr2 : inp.time_block_ranking.lookup tb2 = some r2)
    (hr3 : inp.time_block_ranking.lookup tb3 = some r3)
    (hd1 : r2 - r1 = 1) (hd2 : r3 - r2 = 1) :
    ¬(bookedIn σ inp g p tb1 ∧ bookedIn σ inp g p tb2 ∧ bookedIn σ inp g p tb3) := by
  subst ht1
  subst ht2
  subst ht3
  rintro ⟨hb1, hb2, hb3⟩
  obtain ⟨c3, c4, c5, c6, _, _, _, h6, hcs⟩ :=
    constraints_ok_parts inp (playerGroups sh inp) cs hok
  unfold phase6 at h6
  cases hf : phase6Fold inp (phase6Items inp (playerGroups sh inp)) 0 with
  | error e => rw [hf] at h6; cases h6
  | ok r =>
    rw [hf] at h6
    cases h6
    have hx : (g, p, (inp.slots_by_time_block.map Prod.fst).getD i "",
        (inp.slots_by_time_block.map Prod.fst).getD (i + 1) "",
        (inp.slots_by_time_block.map Prod.fst).getD (i + 2) "") ∈
        phase6Items inp (playerGroups sh inp) := by
      unfold phase6Items
      simp only [List.mem_flatMap, List.mem_map, List.mem_range]
      exact ⟨g, hg, p, hp, i, by omega, rfl⟩
    obtain ⟨ctr2, s, hts, hsub⟩ := phase6Fold_item_step inp _ 0 r hf _ hx
    have hts2 : tripleStep inp g p ((inp.slots_by_time_block.map Prod.fst).getD i "")
        ((inp.slots_by_time_block.map Prod.fst).getD (i + 1) "")
        ((inp.slots_by_time_block.map Prod.fst).getD (i + 2) "") ctr2 = .ok s := hts
    have hguard : ¬((r2 - r1 ≠ 1) ∨ ((r3 - r2 ≠ 1) ∧ (r3 - r1 ≠ 2))) := by omega
    obtain ⟨ms, hms, rfl⟩ :=
      tripleStep_gen inp g p _ _ _ ctr2 s r1 r2 r3 hr1 hr2 hr3 hguard hts2
    have hincs : ∀ c2 ∈ tripleGen inp ms
        ((inp.slots_by_time_block.map Prod.fst).getD i "")
        ((inp.slots_by_time_block.map Prod.fst).getD (i + 1) "")
        ((inp.slots_by_time_block.map Prod.fst).getD (i + 2) "") ctr2, c2 ∈ cs := by
      intro c2 hc2
      rw [hcs]
      exact List.mem_append_right _ (hsub c2 hc2)
    unfold bookedIn at hb1 hb2 hb3
    obtain ⟨m1, hm1, s1, hs1, hv1⟩ := hb1
    obtain ⟨m2, hm2, s2, hs2, hv2⟩ := hb2
    obtain ⟨m3, hm3, s3, hs3, hv3⟩ := hb3
    have hgd : (g.matches_by_player.lookup p.player_id).getD [] = ms := by
      rw [hms]
      rfl
    rw [hgd] at hm1 hm2 hm3
    have hg1 : σ (VId.aux ctr2) = 1 := by
      refine indicator_one σ hbin ctr2 (blockSumTerms
        ((inp.slots_by_time_block.lookup
          ((inp.slots_by_time_block.map Prod.fst).getD i "")).getD []) ms)
        (hsat _ (hincs _ ?_)) (blockSum_ge_one σ hbin _ ms m1 hm1 s1 hs1 hv1)
      unfold tripleGen linkConstrs
      simp
    have hg2 : σ (VId.aux (ctr2 + 1)) = 1 := by
      refine indicator_one σ hbin (ctr2 + 1) (blockSumTerms
        ((inp.slots_by_time_block.lookup
          ((inp.slots_by_time_block.map Prod.fst).getD (i + 1) "")).getD []) ms)
        (hsat _ (hincs _ ?_)) (blockSum_ge_one σ hbin _ ms m2 hm2 s2 hs2 hv2)
      unfold tripleGen linkConstrs
      simp
    have hg3 : σ (VId.aux (ctr2 + 2)) = 1 := by
      refine indicator_one σ hbin (ctr2 + 2) (blockSumTerms
        ((inp.slots_by_time_block.lookup
          ((inp.slots_by_time_block.map Prod.fst).getD (i + 2) "")).getD []) ms)
        (hsat _ (hincs _ ?_)) (blockSum_ge_one σ hbin _ ms m3 hm3 s3 hs3 hv3)
      unfold tripleGen linkConstrs
      simp
    have htrip : σ (VId.aux ctr2) + σ (VId.aux (ctr2 + 1)) + σ (VId.aux (ctr2 + 2)) ≤ 2 := by
      refine triple_sat_bound σ ctr2
        ("back-to-back-" ++ (((ms.getLast?).map Match.match_id).getD ""))
        (hsat _ (hincs _ ?_))
      unfold tripleGen linkConstrs
      simp
    omega

theorem witVal_binary : Binary witVal := by
  intro v
  cases v with
  | nm s =>
    by_cases h : s = "D-1-1-C1-A"
    · exact Or.inr (by simp [witVal, h])
    · exact Or.inl (by simp [witVal, h])
  | aux k =>
    by_cases h : k = 0 ∨ k = 3
    · exact Or.inr (by simp [witVal, h])
    · exact Or.inl (by simp [witVal, h])

/-- The single group of witInput. -/
def c2WitGroup : Group :=
  match playerGroups id witInput with
  | g :: _ => g
  | [] => { group_id := "", division := "", players := [], gmatches := [],
            matches_by_player := [] }

theorem c2_witness :
    constraints witInput (playerGroups id witInput) = .ok witCs ∧
      Binary witVal ∧ (∀ c ∈ witCs, c.Sat witVal) ∧
      c2WitGroup ∈ playerGroups id witInput ∧
      ({ mkP "P1" 1 with seed := true } : Player) ∈ c2WitGroup.players ∧
      (witInput.slots_by_time_block.map Prod.fst).getD 0 "" = "A" ∧
      (witInput.slots_by_time_block.map Prod.fst).getD (0 + 1) "" = "B" ∧
      (witInput.slots_by_time_block.map Prod.fst).getD (0 + 2) "" = "C" ∧
      0 + 2 < (witInput.slots_by_time_block.map Prod.fst).length ∧
      witInput.time_block_ranking.lookup "A" = some 1 ∧
      witInput.time_block_ranking.lookup "B" = some 2 ∧
      witInput.time_block_ranking.lookup "C" = some 3 ∧
      (2 : Int) - 1 = 1 ∧ (3 : Int) - 2 = 1 ∧
      ¬(bookedIn witVal witInput c2WitGroup { mkP "P1" 1 with seed := true } "A" ∧
        bookedIn witVal witInput c2WitGroup { mkP "P1" 1 with seed := true } "B" ∧
        bookedIn witVal witInput c2WitGroup { mkP "P1" 1 with seed := true } "C") :=
  ⟨by rfl, witVal_binary, by decide, by decide, by decide, by decide, by decide, by decide,
    by decide, by decide, by decide, by decide, by decide, by decide,
    c2_anti_triple id witInput witCs witVal (by rfl) witVal_binary (by decide)
      c2WitGroup (by decide) { mkP "P1" 1 with seed := true } (by decide)
      0 "A" "B" "C" (by decide) (by decide) (by decide) (by decide)
      1 2 3 (by decide) (by decide) (by decide) (by decide) (by decide)⟩

/-! ### C5: group construction per division -/

theorem ceilDiv_le {n g : Nat} (hg : 1 ≤ g) : ceilDiv n g ≤ n := by
  unfold ceilDiv
  rw [Nat.div_le_iff_le_mul_add_pred (by omega)]
  have h : n ≤ g * n := Nat.le_mul_of_pos_left n (by omega)
  omega

/-- seeded.seed = True (solver.py line 421). -/
def markSeed (p : Player) : Player := { p with seed := true }

/-- players.length of a group. -/
def groupSize (g : Group) : Nat := g.players.length

/-- Increment the list entry at one position. -/
def bump : List Nat → Nat → List Nat
  | [], _ => []
  | n :: ns, 0 => (n + 1) :: ns
  | n :: ns, i + 1 => n :: bump ns i

theorem bump_length : ∀ (l : List Nat) (k : Nat), (bump l k).length = l.length := by
  intro l
  induction l with
  | nil => intro k; rfl
  | cons n ns ih => intro k; cases k <;> simp [bump, ih]

theorem bump_getD : ∀ (l : List Nat) (k i : Nat), i < l.length →
    (bump l k).getD i 0 = l.getD i 0 + (if i = k then 1 else 0) := by
  intro l
  induction l with
  | nil => intro k i hi; simp at hi
  | cons n ns ih =>
    intro k i hi
    cases k with
    | zero =>
      cases i with
      | zero => simp [bump]
      | succ i2 => simp [bump]
    | succ k2 =>
      cases i with
      | zero => simp [bump]
      | succ i2 =>
        have hi2 : i2 < ns.length := by simpa using hi
        simp only [bump, List.getD_cons_succ]
        rw [ih k2 i2 hi2]
        by_cases hik : i2 = k2
        · rw [if_pos hik, if_pos (by omega)]
        · rw [if_neg hik, if_neg (by omega)]

/-- Distance until a position is next served by the cycling index. -/
def dRR (len idx i : Nat) : Nat := if idx ≤ i then i - idx else i + len - idx

/-- Round-robin invariant: sizes are nondecreasing along the serving order
and within one of each other. -/
def WithinRR (l : List Nat) (idx : Nat) : Prop :=
  ∀ i j, i < l.length → j < l.length →
    dRR l.length idx i ≤ dRR l.length idx j →
      l.getD i 0 ≤ l.getD j 0 ∧ l.getD j 0 ≤ l.getD i 0 + 1

theorem withinRR_step (l : List Nat) (idx : Nat) (hidx : idx < l.length)
    (h : WithinRR l idx) : WithinRR (bump l idx) ((idx + 1) % l.length) := by
  have hmod : (idx + 1) % l.length = if idx + 1 = l.length then 0 else idx + 1 := by
    split
    next heq => rw [heq, Nat.mod_self]
    next hne => exact Nat.mod_eq_of_lt (by omega)
  intro i j hi hj hd
  rw [bump_length] at hi hj
  rw [bump_getD l idx i hi, bump_getD l idx j hj]
  rw [bump_length, hmod] at hd
  have hkey : ∀ x, x < l.length →
      l.getD idx 0 ≤ l.getD x 0 ∧ l.getD x 0 ≤ l.getD idx 0 + 1 := by
    intro x hx
    refine h idx x hidx hx ?_
    unfold dRR
    split <;> split <;> omega
  by_cases hii : i = idx
  · by_cases hjj : j = idx
    · have hij : i = j := by omega
      subst hij
      rw [if_pos hii]
      omega
    · exfalso
      revert hd
      unfold dRR
      split_ifs <;> omega
  · by_cases hjj : j = idx
    · have hk := hkey i hi
      rw [if_neg hii, if_pos hjj, hjj]
      omega
    · have hd0 : dRR l.length idx i ≤ dRR l.length idx j := by
        revert hd
        unfold dRR
        split_ifs <;> omega
      have hk := h i j hi hj hd0
      rw [if_neg hii, if_neg hjj]
      omega

theorem within_pairs (l : List Nat) (idx : Nat) (h : WithinRR l idx) :
    ∀ i j, i < l.length → j < l.length → l.getD i 0 ≤ l.getD j 0 + 1 := by
  intro i j hi hj
  rcases le_total (dRR l.length idx i) (dRR l.length idx j) with hle | hle
  · have hk := h i j hi hj hle
    omega
  · have hk := h j i hj hi hle
    omega

theorem withinRR_ones (l : List Nat) (hone : ∀ i, i < l.length → l.getD i 0 = 1) :
    WithinRR l 0 := by
  intro i j hi hj _
  rw [hone i hi, hone j hj]
  omega

theorem getD_one (l : List Nat) (hall : ∀ x ∈ l, x = 1) :
    ∀ i, i < l.length → l.getD i 0 = 1 := by
  intro i hi
  rw [List.getD_eq_getElem l 0 hi]
  exact hall _ (List.getElem_mem hi)

theorem sizes_appendPlayerAt : ∀ (gs : List Group) (i : Nat) (p : Player),
    (appendPlayerAt gs i p).map groupSize = bump (gs.map groupSize) i := by
  intro gs
  induction gs with
  | nil => intro i p; rfl
  | cons g gs ih =>
    intro i p
    cases i with
    | zero => simp [appendPlayerAt, bump, groupSize]
    | succ i2 => simp [appendPlayerAt, bump, ih]

theorem rr_within : ∀ (ps2 : List Player) (gs : List Group) (idx : Nat),
    idx < gs.length → WithinRR (gs.map groupSize) idx →
    ∃ idx2, WithinRR ((rrDistribute ps2 gs idx).map groupSize) idx2 := by
  intro ps2
  induction ps2 with
  | nil =>
    intro gs idx hidx hw
    exact ⟨idx, hw⟩
  | cons p rest ih =>
    intro gs idx hidx hw
    rw [rrDistribute]
    refine ih (appendPlayerAt gs idx p) ((idx + 1) % gs.length) ?_ ?_
    · rw [appendPlayerAt_length]
      exact Nat.mod_lt _ (by omega)
    · rw [sizes_appendPlayerAt]
      have hstep := withinRR_step (gs.map groupSize) idx
        (by rw [List.length_map]; exact hidx) hw
      rw [List.length_map] at hstep
      exact hstep

theorem appendPlayerAt_flatMap_perm : ∀ (gs : List Group) (i : Nat) (p : Player),
    i < gs.length →
    ((appendPlayerAt gs i p).flatMap Group.players).Perm
      (gs.flatMap Group.players ++ [p]) := by
  intro gs
  induction gs with
  | nil => intro i p hi; simp at hi
  | cons g gs ih =>
    intro i p hi
    cases i with
    | zero =>
      simp only [appendPlayerAt, List.flatMap_cons]
      have h1 : (g.players ++ [p]) ++ gs.flatMap Group.players =
          g.players ++ ([p] ++ gs.flatMap Group.players) := List.append_assoc _ _ _
      have h2 : (g.players ++ gs.flatMap Group.players) ++ [p] =
          g.players ++ (gs.flatMap Group.players ++ [p]) := List.append_assoc _ _ _
      rw [h1, h2]
      exact List.Perm.append_left g.players List.perm_append_comm
    | succ i2 =>
      simp only [appendPlayerAt, List.flatMap_cons]
      have h2 : (g.players ++ gs.flatMap Group.players) ++ [p] =
          g.players ++ (gs.flatMap Group.players ++ [p]) := List.append_assoc _ _ _
      rw [h2]
      exact List.Perm.append_left g.players (ih i2 p (by simpa using hi))

theorem rr_flatMap_perm : ∀ (ps2 : List Player) (gs : List Group) (idx : Nat),
    idx < gs.length →
    ((rrDistribute ps2 gs idx).flatMap Group.players).Perm
      (gs.flatMap Group.players ++ ps2) := by
  intro ps2
  induction ps2 with
  | nil =>
    intro gs idx hidx
    simp [rrDistribute]
  | cons p rest ih =>
    intro gs idx hidx
    rw [rrDistribute]
    have h1 := ih (appendPlayerAt gs idx p) ((idx + 1) % gs.length)
      (by rw [appendPlayerAt_length]; exact Nat.mod_lt _ (by omega))
    refine h1.trans ?_
    have h2 := appendPlayerAt_flatMap_perm gs idx p hidx
    refine (h2.append_right rest).trans ?_
    rw [List.append_assoc]
    simp

theorem appendPlayerAt_map_inv_of {γ : Type} (f : Group → γ) (p : Player)
    (hp : ∀ g, f { g with players := g.players ++ [p] } = f g) :
    ∀ (gs : List Group) (i : Nat), (appendPlayerAt gs i p).map f = gs.map f := by
  intro gs
  induction gs with
  | nil => intro i; rfl
  | cons g gs ih =>
    intro i
    cases i <;> simp [appendPlayerAt, ih, hp]

theorem rrDistribute_map_inv_of {γ : Type} (f : Group → γ) :
    ∀ (ps2 : List Player),
      (∀ p ∈ ps2, ∀ g, f { g with players := g.players ++ [p] } = f g) →
      ∀ (gs : List Group) (idx : Nat), (rrDistribute ps2 gs idx).map f = gs.map f := by
  intro ps2
  induction ps2 with
  | nil => intro _ gs idx; rfl
  | cons p rest ih =>
    intro hcond gs idx
    rw [rrDistribute, ih (fun q hq => hcond q (List.mem_cons_of_mem p hq)),
      appendPlayerAt_map_inv_of f p (hcond p (List.mem_cons_self p rest))]

theorem seedGroups_flatMap (d : String) : ∀ (n : Nat) (l : List Player),
    ((List.enumFrom n l).map (fun ip => mkSeedGroup d ip.1 ip.2)).flatMap
        Group.players = l.map markSeed := by
  intro n l
  induction l generalizing n with
  | nil => rfl
  | cons p l ih =>
    have hstep : List.enumFrom n (p :: l) = (n, p) :: List.enumFrom (n + 1) l := rfl
    rw [hstep, List.map_cons, List.flatMap_cons, ih (n + 1)]
    rfl

theorem seedGroups_flatMap_enum (d : String) (l : List Player) :
    ((l.enum.map (fun ip => mkSeedGroup d ip.1 ip.2)).flatMap Group.players) =
      l.map markSeed :=
  seedGroups_flatMap d 0 l

theorem seedGroups_map_filter (d : String) : ∀ (n : Nat) (l : List Player),
    ((List.enumFrom n l).map (fun ip => mkSeedGroup d ip.1 ip.2)).map
        (fun g2 => g2.players.filter (fun q => q.seed)) =
      l.map (fun p => [markSeed p]) := by
  intro n l
  induction l generalizing n with
  | nil => rfl
  | cons p l ih =>
    have hstep : List.enumFrom n (p :: l) = (n, p) :: List.enumFrom (n + 1) l := rfl
    rw [hstep, List.map_cons, List.map_cons, ih (n + 1)]
    rfl

theorem seedGroups_map_filter_enum (d : String) (l : List Player) :
    ((l.enum.map (fun ip => mkSeedGroup d ip.1 ip.2)).map
        (fun g2 => g2.players.filter (fun q => q.seed))) =
      l.map (fun p => [markSeed p]) :=
  seedGroups_map_filter d 0 l

/-- C5: for a division with n >= 1 players, group size g >= 1, a shuffle
that permutes its input and input seed flags all false, the division's
groups number exactly ceil(n/g) with ids "<division>-1" onward, the k
best-ranked (stably sorted) players are each the unique seed of one group
in order, the combined membership is exactly the division's player set (by
player id), and group sizes are within one of each other. -/
theorem c5_group_construction (sh : List Player → List Player) (gsize : Nat)
    (d : String) (ps : List Player) (hn : 1 ≤ ps.length) (hg : 1 ≤ gsize)
    (hperm : ∀ l, (sh l).Perm l) (hflags : ∀ p ∈ ps, p.seed = false) :
    (buildDivisionGroups sh gsize d ps).length = ceilDiv ps.length gsize ∧
      (buildDivisionGroups sh gsize d ps).map Group.group_id =
        (List.range (ceilDiv ps.length gsize)).map
          (fun i => d ++ "-" ++ natRepr (i + 1)) ∧
      (buildDivisionGroups sh gsize d ps).map
          (fun g2 => g2.players.filter (fun q => q.seed)) =
        ((sortByRanking ps).take (ceilDiv ps.length gsize)).map
          (fun p => [markSeed p]) ∧
      (((buildDivisionGroups sh gsize d ps).flatMap Group.players).map
          Player.player_id).Perm (ps.map Player.player_id) ∧
      ∀ g1 ∈ buildDivisionGroups sh gsize d ps,
        ∀ g2 ∈ buildDivisionGroups sh gsize d ps,
          g1.players.length ≤ g2.players.length + 1 := by
  have hkle : ceilDiv ps.length gsize ≤ ps.length := ceilDiv_le hg
  have hk1 : 1 ≤ ceilDiv ps.length gsize := ceilDiv_pos hn hg
  have hlen0 : 0 < (((sortByRanking ps).take (ceilDiv ps.length gsize)).enum.map
      (fun ip => mkSeedGroup d ip.1 ip.2)).length := by
    rw [List.length_map, List.enum_length, List.length_take, sortByRanking_length]
    omega
  refine ⟨?_, ?_, ?_, ?_, ?_⟩
  · rw [buildDivisionGroups_length, Nat.min_eq_left hkle]
  · rw [buildDivisionGroups_map_gid, Nat.min_eq_left hkle]
  · have hcond : ∀ p ∈ sh ((sortByRanking ps).drop (ceilDiv ps.length gsize)),
        ∀ g : Group,
        ({ g with players := g.players ++ [p] } : Group).players.filter
            (fun q => q.seed) =
          g.players.filter (fun q => q.seed) := by
      intro p hp g
      have hmem : p ∈ ps := (sortByRanking_perm ps).mem_iff.mp
        (List.mem_of_mem_drop ((hperm _).mem_iff.mp hp))
      simp [List.filter_append, hflags p hmem]
    unfold buildDivisionGroups
    rw [rrDistribute_map_inv_of (fun g2 => g2.players.filter (fun q => q.seed))
      _ hcond]
    exact seedGroups_map_filter_enum d _
  · unfold buildDivisionGroups
    have h1 := rr_flatMap_perm (sh ((sortByRanking ps).drop (ceilDiv ps.length gsize)))
      (((sortByRanking ps).take (ceilDiv ps.length gsize)).enum.map
        (fun ip => mkSeedGroup d ip.1 ip.2)) 0 hlen0
    refine (h1.map Player.player_id).trans ?_
    rw [List.map_append, seedGroups_flatMap_enum d _, List.map_map]
    have hpm : (Player.player_id ∘ markSeed) = Player.player_id := rfl
    rw [hpm]
    refine (List.Perm.append_left _ ((hperm _).map Player.player_id)).trans ?_
    rw [← List.map_append, List.take_append_drop]
    exact (sortByRanking_perm ps).map Player.player_id
  · intro g1 hg1 g2 hg2
    unfold buildDivisionGroups at hg1 hg2
    have hones : WithinRR ((((sortByRanking ps).take (ceilDiv ps.length gsize)).enum.map
        (fun ip => mkSeedGroup d ip.1 ip.2)).map groupSize) 0 := by
      refine withinRR_ones _ (getD_one _ ?_)
      intro x hx
      obtain ⟨g0, hg0, rfl⟩ := List.mem_map.mp hx
      obtain ⟨ip, _, rfl⟩ := List.mem_map.mp hg0
      rfl
    obtain ⟨idx2, hw2⟩ := rr_within
      (sh ((sortByRanking ps).drop (ceilDiv ps.length gsize)))
      (((sortByRanking ps).take (ceilDiv ps.length gsize)).enum.map
        (fun ip => mkSeedGroup d ip.1 ip.2)) 0 hlen0 hones
    obtain ⟨i1, hlt1, hget1⟩ := List.getElem_of_mem hg1
    obtain ⟨i2, hlt2, hget2⟩ := List.getElem_of_mem hg2
    have hp := within_pairs _ idx2 hw2 i1 i2
      (by rw [List.length_map]; exact hlt1) (by rw [List.length_map]; exact hlt2)
    rw [List.getD_eq_getElem _ 0 (by rw [List.length_map]; exact hlt1),
      List.getD_eq_getElem _ 0 (by rw [List.length_map]; exact hlt2)] at hp
    rw [List.getElem_map, List.getElem_map] at hp
    rw [hget1, hget2] at hp
    exact hp

/-- Four players of one division, group size 2. -/
def c5ps : List Player := [mkP "P1" 1, mkP "P2" 2, mkP "P3" 3, mkP "P4" 4]

theorem c5_witness :
    1 ≤ c5ps.length ∧ 1 ≤ 2 ∧ (∀ l : List Player, (id l).Perm l) ∧
      (∀ p ∈ c5ps, p.seed = false) ∧
      ((buildDivisionGroups id 2 "D" c5ps).length = ceilDiv c5ps.length 2 ∧
        (buildDivisionGroups id 2 "D" c5ps).map Group.group_id =
          (List.range (ceilDiv c5ps.length 2)).map
            (fun i => "D" ++ "-" ++ natRepr (i + 1)) ∧
        (buildDivisionGroups id 2 "D" c5ps).map
            (fun g2 => g2.players.filter (fun q => q.seed)) =
          ((sortByRanking c5ps).take (ceilDiv c5ps.length 2)).map
            (fun p => [markSeed p]) ∧
        (((buildDivisionGroups id 2 "D" c5ps).flatMap Group.players).map
            Player.player_id).Perm (c5ps.map Player.player_id) ∧
        ∀ g1 ∈ buildDivisionGroups id 2 "D" c5ps,
          ∀ g2 ∈ buildDivisionGroups id 2 "D" c5ps,
            g1.players.length ≤ g2.players.length + 1) :=
  ⟨by decide, by decide, fun l => List.Perm.refl l, by decide,
    c5_group_construction id 2 "D" c5ps (by decide) (by decide)
      (fun l => List.Perm.refl l) (by decide)⟩

end TennisSched
